import Mathlib

/-!
# cess-hardfork: the state download and the genesis merge of `index.js`

A shallow embedding of `src/index.js` and the properties of its specification.

Modelling conventions.

* A JavaScript string is a Lean `String`; the keys and values of the storage are the
  hex strings ("0x" and hex digits) the node returns.
* A JavaScript object used as a map (`genesis.raw.top`) is the list of its entries in
  insertion order, which is the order `JSON.stringify` and `Object.entries` follow for keys
  that are not array indices (a hex key never is one).
* Module-level variables, the environment variables and the files read by a function are
  explicit arguments; what a function writes is part of its result.
* Library functions (`xxhashAsHex`, the serializer of the whole document) are arguments;
  `JSON.parse` is the reader of the JSON grammar defined below.
* A write stream passes its chunks on to the disk in the background, in order; what a
  function that does not wait for the stream leaves on disk is a run of initial chunks, whose
  length the surroundings decide within what the event loop allows.
-/

namespace CessHardfork

/-! ## Strings -/

/-- The method `String.prototype.startsWith(p)`: `p` is an initial segment of `s`. -/
def startsWith (s p : String) : Bool := p.data.isPrefixOf s.data

/-- White space and line terminators, the code points `String.prototype.trim` strips. -/
def isTrimmable (c : Char) : Bool :=
  decide (c.toNat ∈ [0x09, 0x0A, 0x0B, 0x0C, 0x0D, 0x20, 0xA0, 0x1680, 0x2028, 0x2029,
    0x202F, 0x205F, 0x3000, 0xFEFF]) || (decide (0x2000 ≤ c.toNat) && decide (c.toNat ≤ 0x200A))

/-- The method `String.prototype.trim()`. -/
def trim (s : String) : String :=
  String.mk ((s.data.dropWhile isTrimmable).reverse.dropWhile isTrimmable).reverse

/-! ## Constants of `index.js` -/

/-- Line 37: the manually pinned allowlist, `System.Account`. -/
def pinnedPrefixes : List String :=
  ["0x26aa394eea5630e07c48ae0c9558cef7b99d880ec681799c0cf30e8886371da9"]

/-- Line 38: the modules whose storage is not migrated. -/
def skippedModulesPrefix : List String :=
  ["System", "Session", "Historical", "Babe", "Grandpa", "Staking", "Authorship",
    "AuthorityDiscovery", "ImOnline", "Offences", "BagsList", "ElectionProviderMultiPhase"]

/-- Line 162: the storage key of `System.LastRuntimeUpgrade`. -/
def lastRuntimeUpgradeKey : String :=
  "0x26aa394eea5630e07c48ae0c9558cef7f9cce9c888469bb1a0dceaa129672ef8"

/-- Line 165: the storage key `:code`. -/
def codeKey : String := "0x3a636f6465"

/-- Line 172: the storage key of `Sudo.Key`. -/
def sudoKey : String :=
  "0x5c0d1176a568c1f92944340dbfed9e9c530ebca703c85910e7164cb7d1c9e47b"

/-- Line 172: the public key of `//Alice`. -/
def alicePublicKey : String :=
  "0xd43593c715fdd31c61141abd04a99fd6822c8558854ccde39a5684e7a56da27d"

/-! ## Data model -/

/-- A storage pair `[key, value]`. -/
abbrev KVPair := String × String

/-- The object `genesis.raw.top`: its entries in insertion order. -/
abbrev Top := List (String × String)

/-- The member access `top[key]` (`none` is `undefined`, the key is absent). -/
def objGet : Top → String → Option String
  | [], _ => none
  | (k, v) :: rest, key => if k = key then some v else objGet rest key

/-- The assignment `top[key] = value`: an existing key keeps its place, a new key goes last. -/
def objSet : Top → String → String → Top
  | [], key, value => [(key, value)]
  | (k, v) :: rest, key, value =>
    if k = key then (k, value) :: rest else (k, v) :: objSet rest key value

/-- The statement `delete top[key]`. -/
def objDelete (top : Top) (key : String) : Top := top.filter (fun e => decide (e.1 ≠ key))

/-- The keys of an object, in insertion order (`Object.keys`). -/
def objKeys (top : Top) : List String := top.map Prod.fst

/-- The member `genesis.raw` of the chain specification; `J` is the type of the JSON values
the script never inspects. -/
structure RawGenesis (J : Type) where
  top : Top
  others : List (String × J)
deriving DecidableEq

/-- The member `genesis` of the chain specification. -/
structure Genesis (J : Type) where
  raw : RawGenesis J
  others : List (String × J)
deriving DecidableEq

/-- The chain specification `fork.json` (name, id, bootNodes, properties, ..., genesis). -/
structure ForkedSpec (J : Type) where
  genesis : Genesis J
  others : List (String × J)
deriving DecidableEq

/-! ## `ensureMatchPrefixes` (lines 95-107) -/

/-- Lines 95-107. `prefixes` is the module-level array of line 37 at the time of the call
(the function is called once, from `main`, so it is `pinnedPrefixes`); the returned list is
that same array after the pushes. `moduleNames` is what `ensureModuleNames` resolved to. -/
def ensureMatchPrefixes (xxhashAsHex : String → Nat → String) (prefixes : List String)
    (moduleNames : List String) : List String :=
  moduleNames.foldl
    (fun acc moduleName =>
      if !(skippedModulesPrefix.contains moduleName) then acc ++ [xxhashAsHex moduleName 128]
      else acc)
    prefixes

/-! ## `mergeToForkSpec` (lines 155-178) -/

/-- Line 158: the predicate of the filter, `prefixes.some((p) => i[0].startsWith(p))`. -/
def matchesPrefixes (prefixes : List String) (i : KVPair) : Bool :=
  prefixes.any (fun p => startsWith i.1 p)

/-- Lines 157-173 on the object `forkedSpec.genesis.raw.top`. `ALICE` is the environment
variable of line 21, `runtimeHex` the content of `data/runtime.hex`. -/
def mergeTop (ALICE runtimeHex : String) (prefixes : List String) (originKvPairs : List KVPair)
    (top : Top) : Top :=
  let top1 := (originKvPairs.filter (matchesPrefixes prefixes)).foldl
    (fun t kv => objSet t kv.1 kv.2) top
  let top2 := objDelete top1 lastRuntimeUpgradeKey
  let top3 := objSet top2 codeKey ("0x" ++ trim runtimeHex)
  if ALICE ≠ "" then objSet top3 sudoKey alicePublicKey else top3

/-- Lines 155-173: the document after the in-place mutation. -/
def mergeToForkSpec {J : Type} (ALICE runtimeHex : String) (prefixes : List String)
    (originKvPairs : List KVPair) (forkedSpec : ForkedSpec J) : ForkedSpec J :=
  { forkedSpec with
    genesis := { forkedSpec.genesis with
      raw := { forkedSpec.genesis.raw with
        top := mergeTop ALICE runtimeHex prefixes originKvPairs forkedSpec.genesis.raw.top } } }

/-- Line 175: the text written to `data/fork.json`; `stringify` is
`JSON.stringify(·, null, 4)`. -/
def forkJsonWritten {J : Type} (stringify : ForkedSpec J → String) (ALICE runtimeHex : String)
    (prefixes : List String) (originKvPairs : List KVPair) (forkedSpec : ForkedSpec J) : String :=
  stringify (mergeToForkSpec ALICE runtimeHex prefixes originKvPairs forkedSpec)

/-- The value the origin pairs give to `key`: that of the last pair with this key. -/
def lastOriginValue (originKvPairs : List KVPair) (key : String) : Option String :=
  ((originKvPairs.filter (fun kv => decide (kv.1 = key))).getLast?).map Prod.snd

/-! ## Child prefixes (lines 227 and 232) -/

/-- The call `i.toString(16)` on a non-negative integer: lowercase hexadecimal digits. -/
def toString16 (i : Nat) : String := String.mk (Nat.toDigits 16 i)

/-- The call `s.padStart(targetLength, c)` with a one-character filler. -/
def padStart (s : String) (targetLength : Nat) (c : Char) : String :=
  String.mk (List.replicate (targetLength - s.length) c) ++ s

/-- The expression `i.toString(16).padStart(2, "0")` of lines 227 and 232. -/
def childSuffix (i : Nat) : String := padStart (toString16 i) 2 '0'

/-! ## `JSON.stringify` on arrays of pairs and `JSON.parse` -/

/-- The double quote. -/
def quoteChar : Char := Char.ofNat 34

/-- The reverse solidus. -/
def backslash : Char := Char.ofNat 92

/-- How `JSON.stringify` writes one character of a string (ECMA-262, QuoteJSONString). -/
def jsonEscape (c : Char) : List Char :=
  if c = quoteChar then [backslash, quoteChar]
  else if c = backslash then [backslash, backslash]
  else if c = Char.ofNat 8 then [backslash, 'b']
  else if c = Char.ofNat 12 then [backslash, 'f']
  else if c = Char.ofNat 10 then [backslash, 'n']
  else if c = Char.ofNat 13 then [backslash, 'r']
  else if c = Char.ofNat 9 then [backslash, 't']
  else if c.toNat < 32 then [backslash, 'u', '0', '0'] ++ (childSuffix c.toNat).data
  else [c]

/-- The text `JSON.stringify` gives for a string. -/
def quoteJSONString (s : String) : String :=
  String.mk (quoteChar :: (s.data.flatMap jsonEscape ++ [quoteChar]))

/-- The text `JSON.stringify` gives for one pair `[key, value]`. -/
def stringifyPair (kv : KVPair) : String :=
  "[" ++ quoteJSONString kv.1 ++ "," ++ quoteJSONString kv.2 ++ "]"

/-- The method `Array.prototype.join(sep)` on an array of strings. -/
def joinWith (sep : String) : List String → String
  | [] => ""
  | [a] => a
  | a :: b :: rest => a ++ sep ++ joinWith sep (b :: rest)

/-- The call `JSON.stringify(pairs)` on an array of pairs, without indentation. -/
def JSON_stringify (pairs : List KVPair) : String :=
  "[" ++ joinWith "," (pairs.map stringifyPair) ++ "]"

/-- The call `s.slice(1, -1)`: `s` without its first and its last character. -/
def slice1 (s : String) : String := String.mk (s.data.drop 1).dropLast

/-- The white space `JSON.parse` skips between tokens. -/
def isJsonWhitespace (c : Char) : Bool :=
  decide (c = ' ') || decide (c = Char.ofNat 9) || decide (c = Char.ofNat 10) ||
    decide (c = Char.ofNat 13)

/-- Skips white space. -/
def skipWs : List Char → List Char
  | [] => []
  | c :: cs => if isJsonWhitespace c then skipWs cs else c :: cs

/-- A JSON value as `JSON.parse` returns it. A number is kept as the literal that denotes it
(the script never computes with one); an object is the list of its members in insertion
order. -/
inductive Json where
  | null : Json
  | bool (b : Bool) : Json
  | num (literal : String) : Json
  | str (s : String) : Json
  | arr (elements : List Json) : Json
  | obj (members : List (String × Json)) : Json

/-- The left curly bracket. -/
def openBrace : Char := Char.ofNat 123

/-- The right curly bracket. -/
def closeBrace : Char := Char.ofNat 125

/-- The value of a hexadecimal digit of either case. -/
def hexDigitValue (c : Char) : Option Nat :=
  if 48 ≤ c.toNat ∧ c.toNat ≤ 57 then some (c.toNat - 48)
  else if 97 ≤ c.toNat ∧ c.toNat ≤ 102 then some (c.toNat - 87)
  else if 65 ≤ c.toNat ∧ c.toNat ≤ 70 then some (c.toNat - 55)
  else none

/-- The code unit denoted by the character after a reverse solidus, for the two-character
escapes of JSON. -/
def simpleEscape (c : Char) : Option Nat :=
  if c = quoteChar then some 34
  else if c = backslash then some 92
  else if c = '/' then some 47
  else if c = 'b' then some 8
  else if c = 'f' then some 12
  else if c = 'n' then some 10
  else if c = 'r' then some 13
  else if c = 't' then some 9
  else none

/-- The UTF-16 code units of a character: a JavaScript string is a sequence of them. -/
def utf16 (c : Char) : List Nat :=
  if c.toNat < 65536 then [c.toNat]
  else [55296 + (c.toNat - 65536) / 1024, 56320 + (c.toNat - 65536) % 1024]

/-- The characters of a sequence of UTF-16 code units. Half a surrogate pair without its
partner, which only a `\u` escape can produce and a Lean string cannot hold, is read as
U+FFFD. -/
def utf16Decode : List Nat → List Char
  | [] => []
  | [u] => if 55296 ≤ u ∧ u ≤ 57343 then [Char.ofNat 65533] else [Char.ofNat u]
  | u :: l :: rest =>
    if 55296 ≤ u ∧ u ≤ 56319 then
      if 56320 ≤ l ∧ l ≤ 57343 then
        Char.ofNat (65536 + (u - 55296) * 1024 + (l - 56320)) :: utf16Decode rest
      else Char.ofNat 65533 :: utf16Decode (l :: rest)
    else if 56320 ≤ u ∧ u ≤ 57343 then Char.ofNat 65533 :: utf16Decode (l :: rest)
    else Char.ofNat u :: utf16Decode (l :: rest)

/-- Where the reader of a string token is: between characters, after a reverse solidus, or
inside a `\u` escape of which `digits` hexadecimal digits, of value `value`, are read. -/
inductive StringState where
  | plain
  | escape
  | unicode (digits : Nat) (value : Nat)

/-- Reads a string token after its opening quote: the code units of the string and the text
after the closing quote. A raw control character, an unknown escape and the end of the text
are errors. -/
def scanString : StringState → List Char → Option (List Nat × List Char)
  | _, [] => none
  | StringState.plain, c :: cs =>
    if c = quoteChar then some ([], cs)
    else if c = backslash then scanString StringState.escape cs
    else if c.toNat < 32 then none
    else (scanString StringState.plain cs).map (fun r => (utf16 c ++ r.1, r.2))
  | StringState.escape, c :: cs =>
    match simpleEscape c with
    | some u => (scanString StringState.plain cs).map (fun r => (u :: r.1, r.2))
    | none => if c = 'u' then scanString (StringState.unicode 0 0) cs else none
  | StringState.unicode digits value, c :: cs =>
    match hexDigitValue c with
    | none => none
    | some h =>
      if digits = 3 then
        (scanString StringState.plain cs).map (fun r => ((16 * value + h) :: r.1, r.2))
      else scanString (StringState.unicode (digits + 1) (16 * value + h)) cs

/-- The longest run of decimal digits at the head of the text, and what follows it. -/
def takeDigits (cs : List Char) : List Char × List Char := cs.span Char.isDigit

/-- The integer part of a number: `0`, or a non-zero digit and more digits. -/
def scanInteger (cs : List Char) : Option (List Char × List Char) :=
  match cs with
  | [] => none
  | d :: r =>
    if d = '0' then some (['0'], r)
    else if d.isDigit then some (d :: (takeDigits r).1, (takeDigits r).2)
    else none

/-- The optional fraction of a number: a point and at least one digit. -/
def scanFraction (cs : List Char) : Option (List Char × List Char) :=
  match cs with
  | [] => some ([], [])
  | c :: r =>
    if c = '.' then
      (if (takeDigits r).1 = [] then none else some (c :: (takeDigits r).1, (takeDigits r).2))
    else some ([], cs)

/-- The optional exponent of a number: `e` or `E`, an optional sign, at least one digit. -/
def scanExponent (cs : List Char) : Option (List Char × List Char) :=
  match cs with
  | [] => some ([], [])
  | e :: r =>
    if e = 'e' ∨ e = 'E' then
      match r with
      | [] => none
      | s :: r2 =>
        if s = '+' ∨ s = '-' then
          (if (takeDigits r2).1 = [] then none
            else some (e :: s :: (takeDigits r2).1, (takeDigits r2).2))
        else if (takeDigits r).1 = [] then none
        else some (e :: (takeDigits r).1, (takeDigits r).2)
    else some ([], cs)

/-- A number without its sign. -/
def scanUnsigned (cs : List Char) : Option (List Char × List Char) :=
  (scanInteger cs).bind fun i =>
  (scanFraction i.2).bind fun f =>
  (scanExponent f.2).map fun e => (i.1 ++ f.1 ++ e.1, e.2)

/-- A number token: its literal and the text after it. -/
def scanNumber (cs : List Char) : Option (List Char × List Char) :=
  match cs with
  | [] => none
  | c :: r => if c = '-' then (scanUnsigned r).map fun n => (c :: n.1, n.2) else scanUnsigned cs

/-- One of the tokens `true`, `false`, `null`. -/
def scanLiteral (word : List Char) (value : Json) (cs : List Char) : Option (Json × List Char) :=
  if word.isPrefixOf cs then some (value, cs.drop word.length) else none

/-- Adds a member to an object under construction: a key met again takes the new value and
keeps its place. -/
def jsonSet : List (String × Json) → String → Json → List (String × Json)
  | [], key, value => [(key, value)]
  | (k, v) :: rest, key, value =>
    if k = key then (k, value) :: rest else (k, v) :: jsonSet rest key value

mutual
/-- Reads one JSON value, after white space: the value and the text after it. Every call
consumes a character before it recurses, so a fuel above the length of the text is never
used up. -/
def parseValue : Nat → List Char → Option (Json × List Char)
  | 0, _ => none
  | fuel + 1, cs =>
    match skipWs cs with
    | [] => none
    | c :: rest =>
      if c = '[' then
        match skipWs rest with
        | [] => none
        | d :: rest2 =>
          if d = ']' then some (Json.arr [], rest2)
          else (parseValue fuel (d :: rest2)).bind fun vr =>
            (parseElements fuel vr.2).map fun er => (Json.arr (vr.1 :: er.1), er.2)
      else if c = openBrace then
        match skipWs rest with
        | [] => none
        | d :: rest2 =>
          if d = closeBrace then some (Json.obj [], rest2)
          else (parseMember fuel (d :: rest2)).bind fun mr =>
            (parseMembers fuel mr.2).map fun er =>
              (Json.obj (er.1.foldl (fun o m => jsonSet o m.1 m.2) [mr.1]), er.2)
      else if c = quoteChar then
        (scanString StringState.plain rest).map fun sr =>
          (Json.str (String.mk (utf16Decode sr.1)), sr.2)
      else if c = 't' then scanLiteral "true".data (Json.bool true) (c :: rest)
      else if c = 'f' then scanLiteral "false".data (Json.bool false) (c :: rest)
      else if c = 'n' then scanLiteral "null".data Json.null (c :: rest)
      else (scanNumber (c :: rest)).map fun nr => (Json.num (String.mk nr.1), nr.2)
/-- Reads what follows an element of an array: a comma and the next element, or the closing
bracket. -/
def parseElements : Nat → List Char → Option (List Json × List Char)
  | 0, _ => none
  | fuel + 1, cs =>
    match skipWs cs with
    | [] => none
    | c :: rest =>
      if c = ',' then
        (parseValue fuel rest).bind fun vr =>
          (parseElements fuel vr.2).map fun er => (vr.1 :: er.1, er.2)
      else if c = ']' then some ([], rest)
      else none
/-- Reads one member of an object: a string, a colon and a value. -/
def parseMember : Nat → List Char → Option ((String × Json) × List Char)
  | 0, _ => none
  | fuel + 1, cs =>
    match skipWs cs with
    | [] => none
    | c :: rest =>
      if c = quoteChar then
        (scanString StringState.plain rest).bind fun sr =>
          match skipWs sr.2 with
          | [] => none
          | d :: rest2 =>
            if d = ':' then
              (parseValue fuel rest2).map fun vr =>
                ((String.mk (utf16Decode sr.1), vr.1), vr.2)
            else none
      else none
/-- Reads what follows a member of an object: a comma and the next member, or the closing
bracket. -/
def parseMembers : Nat → List Char → Option (List (String × Json) × List Char)
  | 0, _ => none
  | fuel + 1, cs =>
    match skipWs cs with
    | [] => none
    | c :: rest =>
      if c = ',' then
        (parseMember fuel rest).bind fun mr =>
          (parseMembers fuel mr.2).map fun er => (mr.1 :: er.1, er.2)
      else if c = closeBrace then some ([], rest)
      else none
end

/-- The call `JSON.parse(text)`: the value the text denotes, `none` where `JSON.parse` throws
a `SyntaxError`. The text is one value between optional white space. -/
def JSON_parse (text : String) : Option Json :=
  (parseValue (text.length + 1) text.data).bind fun vr =>
    if skipWs vr.2 = [] then some vr.1 else none

/-- The value of a pair `[key, value]`. -/
def pairJson (kv : KVPair) : Json := Json.arr [Json.str kv.1, Json.str kv.2]

/-- The value of an array of pairs, which is also what `Object.entries` gives for an object
with these entries. -/
def pairsJson (pairs : List KVPair) : Json := Json.arr (pairs.map pairJson)

/-! ## `fetchChunks` and `downloadOriginState` (lines 182-235) -/

/-- The module-level variables of lines 183-184, what has been handed to `stream.write` and
the prefixes handed to `api.rpc.state.getPairs`, both oldest first, and the number of chunks
that had been handed to the stream when the script was last resumed after an `await`. -/
structure FetchState where
  separator : Bool
  chunksFetched : Nat
  stream : List String
  queries : List String
  spanStart : Nat
deriving DecidableEq

/-- The script is resumed after an `await`: what it hands to the stream from here until it
next awaits is handed over in one run, without the event loop turning in between. -/
def beginSpan (st : FetchState) : FetchState :=
  { st with spanStart := st.stream.length }

/-- Line 214, up to the `await`: the range query is sent. -/
def issueQuery (pfx : String) (st : FetchState) : FetchState :=
  { st with queries := st.queries ++ [pfx] }

/-- Lines 215-219, run when the response `pairs` has arrived. -/
def leafDone (pairs : List KVPair) (st : FetchState) : FetchState :=
  let st1 :=
    if pairs.length > 0 then
      let st0 :=
        if st.separator then { st with stream := st.stream ++ [","] }
        else { st with separator := true }
      { st0 with stream := st0.stream ++ [slice1 (JSON_stringify pairs)] }
    else st
  { st1 with chunksFetched := st1.chunksFetched + 1 }

/-- Lines 214-220 after the `await`: a failed request rejects the promise (`Except.error`
with the state at that time), a response is handled by `leafDone`. -/
def leafResume (getPairs : String → String → Option (List KVPair)) (pfx atHash : String)
    (st : FetchState) : Except FetchState FetchState :=
  match getPairs pfx atHash with
  | none => Except.error (beginSpan st)
  | some pairs => Except.ok (leafDone pairs (beginSpan st))

/-- Lines 212-235. `getPairs pfx atHash` is the response of the node (`none`: the request
fails), `QUICK_MODE` whether the environment variable is set, and `completion pfx` the order
in which the 256 concurrent responses below `pfx` arrive. In quick mode the 256 calls of line
227 each run up to their `await`, so the 256 queries are sent in order, and the
continuations run one at a time as the responses arrive; the first failure rejects
`Promise.all` and ends the run. -/
def fetchChunks (getPairs : String → String → Option (List KVPair)) (QUICK_MODE : Bool)
    (completion : String → Equiv.Perm (Fin 256)) (atHash : String) :
    Nat → String → FetchState → Except FetchState FetchState
  | 0, pfx, st => leafResume getPairs pfx atHash (issueQuery pfx st)
  | levelsRemaining + 1, pfx, st =>
    if QUICK_MODE && (levelsRemaining + 1 == 1) then
      let st1 := (List.range 256).foldl (fun s i => issueQuery (pfx ++ childSuffix i) s) st
      ((List.finRange 256).map (fun j => (completion pfx j).val)).foldlM
        (fun s i => leafResume getPairs (pfx ++ childSuffix i) atHash s) st1
    else
      (List.range 256).foldlM
        (fun s i => fetchChunks getPairs QUICK_MODE completion atHash levelsRemaining
          (pfx ++ childSuffix i) s) st

/-- The environment variables read by `downloadOriginState` and `fetchChunks`. -/
structure Env where
  FORK_CHUNKS_LEVEL : Option Nat
  FROM_BLOCK_NUM : Option Nat
  QUICK_MODE : Bool

/-- The world around the script: the node behind the api (the block hash lookup, the range
query) and the timing of input and output: `completion pfx` is the order in which the 256
concurrent responses below `pfx` arrive, `flushed` the number of chunks handed to the write
stream that the stream has passed on to the disk when the script leaves
`downloadOriginState`. -/
structure Chain where
  getBlockHash : Option Nat → Option String
  getPairs : String → String → Option (List KVPair)
  completion : String → Equiv.Perm (Fin 256)
  flushed : Nat

/-- Why a run stops. -/
inductive Failure where
  | blockHash
  | rangeQuery
  | parse
  | noFile
deriving DecidableEq

/-- The text of a file to which the chunks were written in order. -/
def concatChunks : List String → String
  | [] => ""
  | c :: cs => c ++ concatChunks cs

/-- What `downloadOriginState` leaves: the file `state_pairs.json` as it is on disk when the
function is left, the module state and whether the promise rejected. -/
structure Download where
  statePairs : Option String
  state : FetchState
  failure : Option Failure
deriving DecidableEq

/-- Lines 186-210. The stream is opened in append mode on `state_pairs.json` (`statePairs` is
its content before the call, `none` if there is no such file). The stream passes the chunks
on to the disk in order and in the background: the function calls `stream.end()` and returns
without waiting for the stream to finish, so when it is left the file holds the first chunks
only, as many as the disk has taken (`chain.flushed`). Of the chunks handed over since the
script was last resumed, at most the first can have left the stream, the others wait in its
buffer for the event loop to turn: the closing bracket is not in the file when the last
response handled was a non-empty batch. -/
def downloadOriginState (env : Env) (chain : Chain) (statePairs : Option String)
    (st : FetchState) : Download :=
  let chunksLevel := env.FORK_CHUNKS_LEVEL.getD 1
  match chain.getBlockHash env.FROM_BLOCK_NUM with
  | none => { statePairs := statePairs, state := st, failure := some Failure.blockHash }
  | some atHash =>
    let st1 := { st with stream := ["["] }
    match fetchChunks chain.getPairs env.QUICK_MODE chain.completion atHash chunksLevel "0x"
        st1 with
    | Except.error st2 =>
      { statePairs := some (statePairs.getD "" ++
          concatChunks (st2.stream.take (min chain.flushed (st2.spanStart + 1)))),
        state := st2, failure := some Failure.rangeQuery }
    | Except.ok st2 =>
      let st3 := { st2 with stream := st2.stream ++ ["]"] }
      { statePairs := some (statePairs.getD "" ++
          concatChunks (st3.stream.take (min chain.flushed (st2.spanStart + 1)))),
        state := st3, failure := none }

/-- The module state when the script starts (lines 183-184). -/
def initialFetchState : FetchState :=
  { separator := false, chunksFetched := 0, stream := [], queries := [], spanStart := 0 }

/-! ## `ensureOriginStateKvPairs` (lines 141-153) -/

/-- The two files the function looks at: `exported_state.json` and `state_pairs.json`. -/
structure Files where
  exportedState : Option String
  statePairs : Option String
deriving DecidableEq

/-- The steps of `ensureOriginStateKvPairs` that touch a file or the network. -/
inductive Action where
  | readExportedState
  | reuseCache
  | download
  | readStatePairs
deriving DecidableEq

/-- What a call of `ensureOriginStateKvPairs` leaves: the files, the module state (with the
queries sent and the chunks written), the steps taken, and the value returned or the
failure. -/
structure Ensured where
  files : Files
  state : FetchState
  actions : List Action
  result : Except Failure Json

/-- Line 152: `JSON.parse(fs.readFileSync(STATE_PAIRS_PATH, 'utf8'))`. -/
def readStatePairs (statePairs : Option String) : Except Failure Json :=
  match statePairs with
  | none => Except.error Failure.noFile
  | some text =>
    match JSON_parse text with
    | none => Except.error Failure.parse
    | some value => Except.ok value

/-- Lines 141-153. `parseExportedTop text` is the object `JSON.parse(text).genesis.raw.top`,
`none` where that throws, and `Object.entries` turns it into the array of its entries. The
function is called once, from `main`, so the download starts from `initialFetchState`; line
152 reads the file as `downloadOriginState` has just left it. -/
def ensureOriginStateKvPairs (parseExportedTop : String → Option Top) (env : Env)
    (chain : Chain) (files : Files) : Ensured :=
  match files.exportedState with
  | some text =>
    { files := files, state := initialFetchState, actions := [Action.readExportedState],
      result := match parseExportedTop text with
        | none => Except.error Failure.parse
        | some top => Except.ok (pairsJson top) }
  | none =>
    match files.statePairs with
    | some _ =>
      { files := files, state := initialFetchState,
        actions := [Action.reuseCache, Action.readStatePairs],
        result := readStatePairs files.statePairs }
    | none =>
      let d := downloadOriginState env chain files.statePairs initialFetchState
      match d.failure with
      | some f =>
        { files := { files with statePairs := d.statePairs }, state := d.state,
          actions := [Action.download], result := Except.error f }
      | none =>
        { files := { files with statePairs := d.statePairs }, state := d.state,
          actions := [Action.download, Action.readStatePairs],
          result := readStatePairs d.statePairs }

/-! ## Notions used to state the properties of the download -/

/-- The lowercase hexadecimal digits. -/
def hexDigitChars : List Char := "0123456789abcdef".data

/-- The value of a lowercase hexadecimal digit. -/
def hexVal (c : Char) : Nat := if c.toNat < 58 then c.toNat - 48 else c.toNat - 87

/-- The leaves at depth `d` below `pfx`, in ascending byte order. -/
def leafPrefixes : Nat → String → List String
  | 0, pfx => [pfx]
  | d + 1, pfx => (List.range 256).flatMap (fun i => leafPrefixes d (pfx ++ childSuffix i))

/-- The leaves at depth `d` below `pfx` in the order in which their responses are handled:
ascending byte order, except that in quick mode the 256 leaves of one parent are handled in
the order their responses arrive. -/
def completionOrder (QUICK_MODE : Bool) (completion : String → Equiv.Perm (Fin 256)) :
    Nat → String → List String
  | 0, pfx => [pfx]
  | d + 1, pfx =>
    if QUICK_MODE && (d + 1 == 1) then
      ((List.finRange 256).map (fun j => (completion pfx j).val)).map
        (fun i => pfx ++ childSuffix i)
    else
      (List.range 256).flatMap
        (fun i => completionOrder QUICK_MODE completion d (pfx ++ childSuffix i))

/-- The hex digits of a sequence of bytes, two per byte. -/
def hexBytes : List (Fin 256) → String
  | [] => ""
  | b :: bs => childSuffix b.val ++ hexBytes bs

/-- The hex form of the storage key with the given bytes. -/
def hexOfBytes (bytes : List (Fin 256)) : String := "0x" ++ hexBytes bytes

/-- The prefixes `ps` have been sent as queries. -/
def issueAll (ps : List String) (st : FetchState) : FetchState :=
  { st with queries := st.queries ++ ps }

/-- The responses `batches` have been handled, in this order, the script being resumed for
each. -/
def deliver (batches : List (List KVPair)) (st : FetchState) : FetchState :=
  batches.foldl (fun s b => leafDone b (beginSpan s)) st

/-- The batches that hold at least one pair. -/
def nonEmptyBatches (batches : List (List KVPair)) : List (List KVPair) :=
  batches.filter (fun b => decide (b.length > 0))

/-- A string that `JSON.stringify` writes between quotes as it is: no quote, no reverse solidus
and no control character. Every hex string is one. -/
def plainString (s : String) : Bool :=
  s.data.all (fun c => decide (c ≠ quoteChar) && decide (c ≠ backslash) && decide (32 ≤ c.toNat))

/-- Both members of the pair are plain strings. -/
def plainPair (kv : KVPair) : Bool := plainString kv.1 && plainString kv.2

/-- What follows the first element in the text of an array. -/
def tailText (pairs : List KVPair) : List Char :=
  pairs.flatMap (fun kv => ',' :: (stringifyPair kv).data)

/-- A node that answers every request: `blockHash` gives the hash of the snapshot block,
`responses pfx atHash` the pairs below `pfx`. -/
def answering (blockHash : Option Nat → String) (responses : String → String → List KVPair)
    (completion : String → Equiv.Perm (Fin 256)) (flushed : Nat) : Chain :=
  { getBlockHash := fun n => some (blockHash n),
    getPairs := fun p a => some (responses p a),
    completion := completion,
    flushed := flushed }

/-- The state a call of `fetchChunks` ended with, whether it returned or threw. -/
def outcomeState : Except FetchState FetchState → FetchState
  | Except.ok st => st
  | Except.error st => st

/-- The stream of `st'` is that of `st` after batches of plain pairs have been handled. -/
def ReachedFrom (st st' : FetchState) : Prop :=
  ∃ bs : List (List KVPair),
    (∀ b ∈ bs, ∀ kv ∈ b, plainPair kv = true) ∧
      st'.stream = (deliver bs st).stream ∧ st'.separator = (deliver bs st).separator

/-- The leaf batches of a download from an answering node, in the order in which the
responses are handled. -/
def deliveredBatches (env : Env) (blockHash : Option Nat → String)
    (responses : String → String → List KVPair) (completion : String → Equiv.Perm (Fin 256)) :
    List (List KVPair) :=
  (completionOrder env.QUICK_MODE completion (env.FORK_CHUNKS_LEVEL.getD 1) "0x").map
    (fun p => responses p (blockHash env.FROM_BLOCK_NUM))

/-- The module state when `fetchChunks` returns, in a download from an answering node. -/
def fetchedState (env : Env) (blockHash : Option Nat → String)
    (responses : String → String → List KVPair) (completion : String → Equiv.Perm (Fin 256)) :
    FetchState :=
  deliver (deliveredBatches env blockHash responses completion)
    (issueAll (leafPrefixes (env.FORK_CHUNKS_LEVEL.getD 1) "0x")
      { initialFetchState with stream := ["["] })

/-! ## Concrete runs -/

/-- Depth 1, sequential mode, the snapshot at the chain head. -/
def sampleEnv : Env := { FORK_CHUNKS_LEVEL := some 1, FROM_BLOCK_NUM := none, QUICK_MODE := false }

/-- Depth 1, quick mode. -/
def quickEnv : Env := { FORK_CHUNKS_LEVEL := some 1, FROM_BLOCK_NUM := none, QUICK_MODE := true }

/-- A node that answers the query of the leaf "0x00" with one pair and fails at the next
leaf; the two chunks written by then reach the disk. -/
def failingChain : Chain :=
  { getBlockHash := fun _ => some "0xb10c",
    getPairs := fun p _ => if p = "0x00" then some [("0x00ab", "0x01")] else none,
    completion := fun _ => Equiv.refl _,
    flushed := 2 }

/-- The responses of a node that holds one pair below "0x01" and one below "0x05". -/
def sampleResponses (p : String) (_atHash : String) : List KVPair :=
  if p = "0x01" then [("0x0102", "0xaa")] else if p = "0x05" then [("0x05", "0xbb")] else []

/-! ## Lemmas on objects -/

theorem objGet_objSet (top : Top) (k v key : String) :
    objGet (objSet top k v) key = if k = key then some v else objGet top key := by
  induction top with
  | nil => simp [objSet, objGet]
  | cons e rest ih =>
    obtain ⟨k', v'⟩ := e
    by_cases h : k' = k
    · subst h
      by_cases h2 : k' = key <;> simp [objSet, objGet, h2]
    · by_cases h2 : k' = key
      · subst h2
        have : ¬ k = k' := fun h3 => h h3.symm
        simp [objSet, objGet, h, this]
      · simp [objSet, objGet, h, h2, ih]

theorem objGet_objDelete (top : Top) (k key : String) :
    objGet (objDelete top k) key = if k = key then none else objGet top key := by
  induction top with
  | nil => simp [objDelete, objGet]
  | cons e rest ih =>
    obtain ⟨k', v'⟩ := e
    unfold objDelete at ih ⊢
    by_cases h : k' = k
    · subst h
      by_cases h2 : k' = key
      · simp [objGet, h2] at ih ⊢
        simpa [h2] using ih
      · simp [objGet, h2] at ih ⊢
        simpa [h2] using ih
    · by_cases h2 : k' = key
      · subst h2
        have : ¬ k = k' := fun h3 => h h3.symm
        simp [objGet, h, this, List.filter_cons]
      · simp [objGet, h, h2, List.filter_cons]
        simpa using ih

theorem lastOriginValue_nil (key : String) : lastOriginValue [] key = none := rfl

theorem lastOriginValue_cons (kv : KVPair) (l : List KVPair) (key : String) :
    lastOriginValue (kv :: l) key =
      (lastOriginValue l key).or (if kv.1 = key then some kv.2 else none) := by
  unfold lastOriginValue
  by_cases h : kv.1 = key
  · have hf : (kv :: l).filter (fun kv => decide (kv.1 = key)) =
        kv :: l.filter (fun kv => decide (kv.1 = key)) := by
      simp [List.filter_cons, h]
    rw [hf, List.getLast?_cons, if_pos h]
    generalize (l.filter (fun kv => decide (kv.1 = key))).getLast? = o
    cases o <;> rfl
  · have hf : (kv :: l).filter (fun kv => decide (kv.1 = key)) =
        l.filter (fun kv => decide (kv.1 = key)) := by
      simp [List.filter_cons, h]
    rw [hf, if_neg h]
    generalize (l.filter (fun kv => decide (kv.1 = key))).getLast? = o
    cases o <;> rfl

/-- Reading a key after a run of assignments: the last assignment to it wins. -/
theorem objGet_foldl_objSet (l : List KVPair) (top : Top) (key : String) :
    objGet (l.foldl (fun t kv => objSet t kv.1 kv.2) top) key =
      (lastOriginValue l key).or (objGet top key) := by
  induction l generalizing top with
  | nil => simp [lastOriginValue_nil]
  | cons kv l ih =>
    rw [List.foldl_cons, ih, objGet_objSet, lastOriginValue_cons]
    cases lastOriginValue l key <;> by_cases h : kv.1 = key <;> simp [h]

theorem lastOriginValue_filter (p : String → Bool) (l : List KVPair) (key : String) :
    lastOriginValue (l.filter (fun kv => p kv.1)) key =
      if p key then lastOriginValue l key else none := by
  unfold lastOriginValue
  rw [List.filter_filter]
  by_cases hp : p key
  · have : (fun a : KVPair => (decide (a.1 = key) && p a.1)) = fun a => decide (a.1 = key) := by
      funext a
      by_cases h : a.1 = key <;> simp [h, hp]
    simp [hp, this]
  · have : (fun a : KVPair => (decide (a.1 = key) && p a.1)) = fun _ => false := by
      funext a
      by_cases h : a.1 = key <;> simp [h, hp]
    simp [hp, this]

theorem lastOriginValue_isSome (l : List KVPair) (key : String) :
    (lastOriginValue l key).isSome = true ↔ key ∈ l.map Prod.fst := by
  induction l with
  | nil => simp [lastOriginValue_nil]
  | cons kv l ih =>
    rw [lastOriginValue_cons, List.map_cons, List.mem_cons]
    by_cases h : kv.1 = key
    · rw [if_pos h]
      constructor
      · intro _
        exact Or.inl h.symm
      · intro _
        cases lastOriginValue l key <;> rfl
    · rw [if_neg h]
      have h2 : ¬ key = kv.1 := fun h3 => h h3.symm
      constructor
      · intro hs
        refine Or.inr (ih.mp ?_)
        cases hl : lastOriginValue l key
        · rw [hl] at hs
          exact absurd hs (by simp)
        · rfl
      · intro hm
        rcases hm with hm | hm
        · exact absurd hm h2
        · have := ih.mpr hm
          cases hl : lastOriginValue l key
          · rw [hl] at this
            exact absurd this (by simp)
          · rfl

theorem fixedKeys_distinct :
    lastRuntimeUpgradeKey ≠ codeKey ∧ lastRuntimeUpgradeKey ≠ sudoKey ∧ codeKey ≠ sudoKey := by
  decide

/-- The value `mergeTop` leaves at any key, in terms of the value before. -/
theorem objGet_mergeTop (ALICE runtimeHex : String) (prefixes : List String)
    (originKvPairs : List KVPair) (top : Top) (key : String) :
    objGet (mergeTop ALICE runtimeHex prefixes originKvPairs top) key =
      if ALICE ≠ "" ∧ key = sudoKey then some alicePublicKey
      else if key = codeKey then some ("0x" ++ trim runtimeHex)
      else if key = lastRuntimeUpgradeKey then none
      else if (prefixes.any (fun p => startsWith key p)) = true then
        (lastOriginValue originKvPairs key).or (objGet top key)
      else objGet top key := by
  have hfilter : lastOriginValue (originKvPairs.filter (matchesPrefixes prefixes)) key =
      if (prefixes.any (fun p => startsWith key p)) = true then lastOriginValue originKvPairs key
      else none :=
    lastOriginValue_filter (fun k => prefixes.any (fun p => startsWith k p)) originKvPairs key
  obtain ⟨h1, h2, h3⟩ := fixedKeys_distinct
  have h1s := h1.symm
  have h2s := h2.symm
  have h3s := h3.symm
  unfold mergeTop
  simp only []
  by_cases hA : ALICE = ""
  · simp only [hA, ne_eq, not_true_eq_false, if_false, false_and]
    rw [objGet_objSet, objGet_objDelete, objGet_foldl_objSet, hfilter]
    by_cases hc : key = codeKey
    · simp [hc]
    · have hc2 : ¬ codeKey = key := fun h => hc h.symm
      by_cases hl : key = lastRuntimeUpgradeKey
      · simp [hc2, hl, h1, h1s]
      · have hl2 : ¬ lastRuntimeUpgradeKey = key := fun h => hl h.symm
        by_cases hm : (prefixes.any (fun p => startsWith key p)) = true <;>
          simp [hc, hc2, hl, hl2, hm]
  · simp only [hA, ne_eq, not_false_eq_true, if_true, true_and]
    rw [objGet_objSet, objGet_objSet, objGet_objDelete, objGet_foldl_objSet, hfilter]
    by_cases hs : key = sudoKey
    · simp [hs]
    · have hs2 : ¬ sudoKey = key := fun h => hs h.symm
      by_cases hc : key = codeKey
      · simp [hc, hs2, h3, h3s]
      · have hc2 : ¬ codeKey = key := fun h => hc h.symm
        by_cases hl : key = lastRuntimeUpgradeKey
        · simp [hc2, hl, hs2, hs, h1, h1s, h2, h2s]
        · have hl2 : ¬ lastRuntimeUpgradeKey = key := fun h => hl h.symm
          by_cases hm : (prefixes.any (fun p => startsWith key p)) = true <;>
            simp [hc, hc2, hl, hl2, hm, hs, hs2]

theorem objGet_eq_none_iff (top : Top) (key : String) :
    objGet top key = none ↔ key ∉ objKeys top := by
  induction top with
  | nil => simp [objGet, objKeys]
  | cons e rest ih =>
    obtain ⟨k, v⟩ := e
    by_cases h : k = key
    · simp [objGet, objKeys, h]
    · have h2 : ¬ key = k := fun h3 => h h3.symm
      simp only [objGet, h, if_false, ih, objKeys, List.map_cons, List.mem_cons, h2, false_or]

theorem ensureMatchPrefixes_append (xxhashAsHex : String → Nat → String)
    (prefixes moduleNames : List String) :
    ensureMatchPrefixes xxhashAsHex prefixes moduleNames =
      prefixes ++ (moduleNames.filter (fun n => !(skippedModulesPrefix.contains n))).map
        (fun n => xxhashAsHex n 128) := by
  unfold ensureMatchPrefixes
  induction moduleNames generalizing prefixes with
  | nil => simp
  | cons n rest ih =>
    rw [List.foldl_cons, ih]
    by_cases h : n ∈ skippedModulesPrefix
    · simp [h, List.filter_cons]
    · simp [h, List.filter_cons]

theorem matchesPrefixes_congr (A B : List String) (h : ∀ p, p ∈ A ↔ p ∈ B) :
    matchesPrefixes A = matchesPrefixes B := by
  funext i
  unfold matchesPrefixes
  rw [Bool.eq_iff_iff]
  simp only [List.any_eq_true]
  constructor
  · rintro ⟨p, hp, hs⟩
    exact ⟨p, (h p).mp hp, hs⟩
  · rintro ⟨p, hp, hs⟩
    exact ⟨p, (h p).mpr hp, hs⟩

/-! ## Keys of an object under assignment and deletion -/

theorem objKeys_objSet (top : Top) (k v : String) :
    objKeys (objSet top k v) = if k ∈ objKeys top then objKeys top else objKeys top ++ [k] := by
  induction top with
  | nil => simp [objSet, objKeys]
  | cons e rest ih =>
    obtain ⟨k', v'⟩ := e
    unfold objKeys at ih ⊢
    by_cases h : k' = k
    · subst h
      simp [objSet]
    · have h2 : ¬ k = k' := fun h3 => h h3.symm
      simp only [objSet, h, if_false, List.map_cons, ih, List.mem_cons, h2, false_or]
      by_cases hm : k ∈ List.map Prod.fst rest
      · simp [hm]
      · simp [hm]

theorem objKeys_objDelete (top : Top) (k : String) :
    objKeys (objDelete top k) = (objKeys top).filter (fun x => decide (x ≠ k)) := by
  unfold objKeys objDelete
  rw [List.filter_map]
  rfl

theorem mem_objKeys_objSet (top : Top) (k v key : String) :
    key ∈ objKeys (objSet top k v) ↔ key = k ∨ key ∈ objKeys top := by
  rw [objKeys_objSet]
  by_cases h : k ∈ objKeys top
  · rw [if_pos h]
    constructor
    · exact Or.inr
    · rintro (rfl | h2)
      · exact h
      · exact h2
  · rw [if_neg h, List.mem_append, List.mem_singleton]
    tauto

theorem nodup_objKeys_objSet (top : Top) (k v : String) (h : (objKeys top).Nodup) :
    (objKeys (objSet top k v)).Nodup := by
  rw [objKeys_objSet]
  by_cases hm : k ∈ objKeys top
  · rw [if_pos hm]
    exact h
  · rw [if_neg hm]
    refine List.Nodup.append h (List.nodup_singleton k) ?_
    intro x hx hx2
    rw [List.mem_singleton] at hx2
    exact hm (hx2 ▸ hx)

theorem nodup_objKeys_objDelete (top : Top) (k : String) (h : (objKeys top).Nodup) :
    (objKeys (objDelete top k)).Nodup := by
  rw [objKeys_objDelete]
  exact h.filter _

theorem nodup_objKeys_foldl (l : List KVPair) (top : Top) (h : (objKeys top).Nodup) :
    (objKeys (l.foldl (fun t kv => objSet t kv.1 kv.2) top)).Nodup := by
  induction l generalizing top with
  | nil => exact h
  | cons kv l ih => exact ih _ (nodup_objKeys_objSet top kv.1 kv.2 h)

theorem nodup_objKeys_mergeTop (ALICE runtimeHex : String) (prefixes : List String)
    (originKvPairs : List KVPair) (top : Top) (h : (objKeys top).Nodup) :
    (objKeys (mergeTop ALICE runtimeHex prefixes originKvPairs top)).Nodup := by
  unfold mergeTop
  simp only []
  have h3 := nodup_objKeys_objSet _ codeKey ("0x" ++ trim runtimeHex)
    (nodup_objKeys_objDelete _ lastRuntimeUpgradeKey
      (nodup_objKeys_foldl (originKvPairs.filter (matchesPrefixes prefixes)) top h))
  by_cases hA : ALICE ≠ ""
  · rw [if_pos hA]
    exact nodup_objKeys_objSet _ _ _ h3
  · rw [if_neg hA]
    exact h3

/-- Two objects with the same keys in the same order and the same value at every key are the
same object. -/
theorem obj_ext (a b : Top) (hn : (objKeys a).Nodup) (hk : objKeys a = objKeys b)
    (hv : ∀ key, objGet a key = objGet b key) : a = b := by
  induction a generalizing b with
  | nil =>
    cases b with
    | nil => rfl
    | cons e rest => simp [objKeys] at hk
  | cons e rest ih =>
    cases b with
    | nil => simp [objKeys] at hk
    | cons e' rest' =>
      obtain ⟨k, v⟩ := e
      obtain ⟨k', v'⟩ := e'
      simp only [objKeys, List.map_cons, List.cons.injEq] at hk
      obtain ⟨hk1, hk2⟩ := hk
      subst hk1
      simp only [objKeys, List.map_cons, List.nodup_cons] at hn
      have hvk := hv k
      simp only [objGet, if_true, Option.some.injEq] at hvk
      subst hvk
      have hrest : rest = rest' := by
        apply ih rest' hn.2 hk2
        intro key
        by_cases hkey : k = key
        · subst hkey
          have h1 : objGet rest k = none := (objGet_eq_none_iff rest k).mpr hn.1
          have h2 : objGet rest' k = none := by
            apply (objGet_eq_none_iff rest' k).mpr
            unfold objKeys
            rw [← hk2]
            exact hn.1
          rw [h1, h2]
        · have := hv key
          simpa only [objGet, hkey, if_false] using this
      rw [hrest]

/-- A run of assignments to keys that are already present, or equal to `u`, adds no key other
than `u`. -/
theorem objKeys_foldl_filter (u : String) (l : List KVPair) (top : Top)
    (h : ∀ kv ∈ l, kv.1 ∈ objKeys top ∨ kv.1 = u) :
    (objKeys (l.foldl (fun t kv => objSet t kv.1 kv.2) top)).filter (fun x => decide (x ≠ u)) =
      (objKeys top).filter (fun x => decide (x ≠ u)) := by
  induction l generalizing top with
  | nil => rfl
  | cons kv l ih =>
    rw [List.foldl_cons, ih]
    · rw [objKeys_objSet]
      by_cases hm : kv.1 ∈ objKeys top
      · rw [if_pos hm]
      · rw [if_neg hm]
        have hu : kv.1 = u := by
          rcases h kv (List.mem_cons_self _ _) with h1 | h1
          · exact absurd h1 hm
          · exact h1
        simp [List.filter_append, hu]
    · intro kv' hkv'
      rcases h kv' (List.mem_cons_of_mem _ hkv') with h1 | h1
      · exact Or.inl ((mem_objKeys_objSet top kv.1 kv.2 kv'.1).mpr (Or.inr h1))
      · exact Or.inr h1

theorem mem_objKeys_iff (top : Top) (key : String) :
    key ∈ objKeys top ↔ (objGet top key).isSome = true := by
  by_cases h : key ∈ objKeys top
  · have : objGet top key ≠ none := fun hn => (objGet_eq_none_iff top key).mp hn h
    cases hg : objGet top key with
    | none => exact absurd hg this
    | some v => simp [h]
  · have := (objGet_eq_none_iff top key).mpr h
    simp [h, this]

/-- Merging into an already merged object changes neither a key nor a value. -/
theorem mergeTop_idempotent (ALICE runtimeHex : String) (prefixes : List String)
    (originKvPairs : List KVPair) (top : Top) (hn : (objKeys top).Nodup) :
    mergeTop ALICE runtimeHex prefixes originKvPairs
      (mergeTop ALICE runtimeHex prefixes originKvPairs top) =
      mergeTop ALICE runtimeHex prefixes originKvPairs top := by
  obtain ⟨h1, h2, h3⟩ := fixedKeys_distinct
  have hget := objGet_mergeTop ALICE runtimeHex prefixes originKvPairs
  have hn1 := nodup_objKeys_mergeTop ALICE runtimeHex prefixes originKvPairs top hn
  have hn2 := nodup_objKeys_mergeTop ALICE runtimeHex prefixes originKvPairs _ hn1
  generalize hT : mergeTop ALICE runtimeHex prefixes originKvPairs top = T at hn1 hn2 ⊢
  -- the keys the second merge touches are present in `T`, the deleted one is absent
  have hUabs : lastRuntimeUpgradeKey ∉ objKeys T := by
    apply (objGet_eq_none_iff T _).mp
    rw [← hT, hget, if_neg (fun h => h2 h.2), if_neg h1, if_pos rfl]
  have hCin : codeKey ∈ objKeys T := by
    rw [mem_objKeys_iff, ← hT, hget, if_neg (fun h => h3 h.2), if_pos rfl]
    rfl
  have hSin : ALICE ≠ "" → sudoKey ∈ objKeys T := by
    intro hA
    rw [mem_objKeys_iff, ← hT, hget, if_pos ⟨hA, rfl⟩]
    rfl
  have hPin : ∀ kv ∈ originKvPairs.filter (matchesPrefixes prefixes),
      kv.1 ∈ objKeys T ∨ kv.1 = lastRuntimeUpgradeKey := by
    intro kv hkv
    obtain ⟨hmem, hmatch⟩ := List.mem_filter.mp hkv
    by_cases hu : kv.1 = lastRuntimeUpgradeKey
    · exact Or.inr hu
    · left
      rw [mem_objKeys_iff, ← hT, hget]
      have hsome : (lastOriginValue originKvPairs kv.1).isSome = true :=
        (lastOriginValue_isSome originKvPairs kv.1).mpr (List.mem_map_of_mem Prod.fst hmem)
      obtain ⟨v, hv⟩ := Option.isSome_iff_exists.mp hsome
      have hm : (prefixes.any (fun p => startsWith kv.1 p)) = true := hmatch
      split_ifs <;> first | rfl | (rw [hv]; rfl)
  apply obj_ext _ _ hn2
  · -- the keys
    unfold mergeTop
    simp only []
    have hk1 : objKeys (objDelete ((originKvPairs.filter (matchesPrefixes prefixes)).foldl
        (fun t kv => objSet t kv.1 kv.2) T) lastRuntimeUpgradeKey) = objKeys T := by
      rw [objKeys_objDelete, objKeys_foldl_filter lastRuntimeUpgradeKey _ T hPin]
      apply List.filter_eq_self.mpr
      intro x hx
      simp only [ne_eq, decide_eq_true_eq]
      intro hxe
      exact hUabs (hxe ▸ hx)
    have hk2 : objKeys (objSet (objDelete ((originKvPairs.filter
        (matchesPrefixes prefixes)).foldl (fun t kv => objSet t kv.1 kv.2) T)
        lastRuntimeUpgradeKey) codeKey ("0x" ++ trim runtimeHex)) = objKeys T := by
      rw [objKeys_objSet, hk1, if_pos hCin]
    by_cases hA : ALICE ≠ ""
    · rw [if_pos hA, objKeys_objSet, hk2, if_pos (hSin hA)]
    · rw [if_neg hA, hk2]
  · -- the values
    intro key
    rw [hget, ← hT, hget]
    split_ifs <;> first | rfl | (cases lastOriginValue originKvPairs key <;> rfl)

/-! ## Properties of the merge and of the allowlist -/

/-- C3: for a key other than the three fixed keys of steps 3-5, a key that occurs among the
origin pairs and starts with an allowlist entry is mapped by the merged `genesis.raw.top` to
the value of the last origin pair with that key, whatever the template held; any other key
keeps its template value, an absent key stays absent. -/
theorem mergeToForkSpec_allowlisted_key {J : Type} (ALICE runtimeHex : String)
    (prefixes : List String) (originKvPairs : List KVPair) (forkedSpec : ForkedSpec J)
    (key : String) (hUpgrade : key ≠ lastRuntimeUpgradeKey) (hCode : key ≠ codeKey)
    (hSudo : ALICE ≠ "" → key ≠ sudoKey) :
    ((key ∈ originKvPairs.map Prod.fst ∧ ∃ p ∈ prefixes, startsWith key p = true) →
      ∃ v, lastOriginValue originKvPairs key = some v ∧
        objGet (mergeToForkSpec ALICE runtimeHex prefixes originKvPairs
          forkedSpec).genesis.raw.top key = some v) ∧
    (¬ (key ∈ originKvPairs.map Prod.fst ∧ ∃ p ∈ prefixes, startsWith key p = true) →
      objGet (mergeToForkSpec ALICE runtimeHex prefixes originKvPairs
        forkedSpec).genesis.raw.top key = objGet forkedSpec.genesis.raw.top key) := by
  have hget := objGet_mergeTop ALICE runtimeHex prefixes originKvPairs
    forkedSpec.genesis.raw.top key
  have hS : ¬ (ALICE ≠ "" ∧ key = sudoKey) := fun h => hSudo h.1 h.2
  rw [if_neg hS, if_neg hCode, if_neg hUpgrade] at hget
  have hany : (prefixes.any (fun p => startsWith key p)) = true ↔
      ∃ p ∈ prefixes, startsWith key p = true := by
    simp only [List.any_eq_true]
  constructor
  · rintro ⟨hmem, hmatch⟩
    have hsome := (lastOriginValue_isSome originKvPairs key).mpr hmem
    obtain ⟨v, hv⟩ := Option.isSome_iff_exists.mp hsome
    refine ⟨v, hv, ?_⟩
    show objGet (mergeTop ALICE runtimeHex prefixes originKvPairs forkedSpec.genesis.raw.top)
      key = some v
    rw [hget, if_pos (hany.mpr hmatch), hv]
    rfl
  · intro hnot
    show objGet (mergeTop ALICE runtimeHex prefixes originKvPairs forkedSpec.genesis.raw.top)
      key = objGet forkedSpec.genesis.raw.top key
    rw [hget]
    by_cases hm : (prefixes.any (fun p => startsWith key p)) = true
    · rw [if_pos hm]
      have hnmem : ¬ key ∈ originKvPairs.map Prod.fst := fun h => hnot ⟨h, hany.mp hm⟩
      have hnone : lastOriginValue originKvPairs key = none := by
        cases hl : lastOriginValue originKvPairs key with
        | none => rfl
        | some v =>
          exact absurd ((lastOriginValue_isSome originKvPairs key).mp (by rw [hl]; rfl)) hnmem
      rw [hnone]
      rfl
    · rw [if_neg hm]

/-- C3, on the example of the specification: allowlist `["0xAB"]`, pairs
`[("0xAB01","v1"),("0xCD02","v2")]`, template with "0xAB01" at "old"; the key "0xAB01" ends
with the origin value "v1" and the key "0xCD02" stays absent. -/
theorem mergeToForkSpec_allowlisted_key_witness :
    objGet (mergeToForkSpec "" "00" ["0xAB"] [("0xAB01", "v1"), ("0xCD02", "v2")]
      (ForkedSpec.mk (Genesis.mk (RawGenesis.mk [("0xAB01", "old")] []) []) [] :
        ForkedSpec Unit)).genesis.raw.top "0xAB01" = some "v1" ∧
    objGet (mergeToForkSpec "" "00" ["0xAB"] [("0xAB01", "v1"), ("0xCD02", "v2")]
      (ForkedSpec.mk (Genesis.mk (RawGenesis.mk [("0xAB01", "old")] []) []) [] :
        ForkedSpec Unit)).genesis.raw.top "0xCD02" = none := by
  obtain ⟨v, hv, hg⟩ := (mergeToForkSpec_allowlisted_key "" "00" ["0xAB"]
    [("0xAB01", "v1"), ("0xCD02", "v2")]
    (ForkedSpec.mk (Genesis.mk (RawGenesis.mk [("0xAB01", "old")] []) []) [] : ForkedSpec Unit)
    "0xAB01" (by decide) (by decide) (fun h => absurd rfl h)).1
    ⟨by decide, "0xAB", by decide, by decide⟩
  have hv2 : lastOriginValue [("0xAB01", "v1"), ("0xCD02", "v2")] "0xAB01" = some "v1" := by
    decide
  rw [hv2] at hv
  refine ⟨by rw [hg, ← hv], ?_⟩
  exact (mergeToForkSpec_allowlisted_key "" "00" ["0xAB"]
    [("0xAB01", "v1"), ("0xCD02", "v2")]
    (ForkedSpec.mk (Genesis.mk (RawGenesis.mk [("0xAB01", "old")] []) []) [] : ForkedSpec Unit)
    "0xCD02" (by decide) (by decide) (fun h => absurd rfl h)).2 (by decide)

/-- C4: after the merge the `System.LastRuntimeUpgrade` key is absent, the `:code` key holds
"0x" followed by the trimmed runtime hex, and when `ALICE` is non-empty the sudo key holds
the public key of Alice; this for every allowlist, pair sequence and template. -/
theorem mergeToForkSpec_fixed_keys {J : Type} (ALICE runtimeHex : String)
    (prefixes : List String) (originKvPairs : List KVPair) (forkedSpec : ForkedSpec J) :
    lastRuntimeUpgradeKey ∉ objKeys (mergeToForkSpec ALICE runtimeHex prefixes originKvPairs
      forkedSpec).genesis.raw.top ∧
    objGet (mergeToForkSpec ALICE runtimeHex prefixes originKvPairs
      forkedSpec).genesis.raw.top lastRuntimeUpgradeKey = none ∧
    objGet (mergeToForkSpec ALICE runtimeHex prefixes originKvPairs
      forkedSpec).genesis.raw.top codeKey = some ("0x" ++ trim runtimeHex) ∧
    (ALICE ≠ "" → objGet (mergeToForkSpec ALICE runtimeHex prefixes originKvPairs
      forkedSpec).genesis.raw.top sudoKey = some alicePublicKey) := by
  obtain ⟨h1, h2, h3⟩ := fixedKeys_distinct
  have hU : objGet (mergeTop ALICE runtimeHex prefixes originKvPairs forkedSpec.genesis.raw.top)
      lastRuntimeUpgradeKey = none := by
    rw [objGet_mergeTop, if_neg (fun h => h2 h.2), if_neg h1, if_pos rfl]
  refine ⟨(objGet_eq_none_iff _ _).mp hU, hU, ?_, ?_⟩
  · show objGet (mergeTop ALICE runtimeHex prefixes originKvPairs forkedSpec.genesis.raw.top)
      codeKey = _
    rw [objGet_mergeTop, if_neg (fun h => h3 h.2), if_pos rfl]
  · intro hA
    show objGet (mergeTop ALICE runtimeHex prefixes originKvPairs forkedSpec.genesis.raw.top)
      sudoKey = _
    rw [objGet_mergeTop, if_pos ⟨hA, rfl⟩]

/-- C4, on a run where the allowlist matches everything and both the pairs and the template
carry values at the three fixed keys. -/
theorem mergeToForkSpec_fixed_keys_witness :
    ("1" : String) ≠ "" ∧
    objGet (mergeToForkSpec "1" " abcd\n" [""]
      [(sudoKey, "0x01"), (codeKey, "0x02"), (lastRuntimeUpgradeKey, "0x03")]
      (ForkedSpec.mk (Genesis.mk (RawGenesis.mk
        [(lastRuntimeUpgradeKey, "0x04"), (codeKey, "0x05"), (sudoKey, "0x06")] []) []) [] :
        ForkedSpec Unit)).genesis.raw.top sudoKey = some alicePublicKey :=
  ⟨by decide, (mergeToForkSpec_fixed_keys "1" " abcd\n" [""]
      [(sudoKey, "0x01"), (codeKey, "0x02"), (lastRuntimeUpgradeKey, "0x03")]
      (ForkedSpec.mk (Genesis.mk (RawGenesis.mk
        [(lastRuntimeUpgradeKey, "0x04"), (codeKey, "0x05"), (sudoKey, "0x06")] []) []) [] :
        ForkedSpec Unit)).2.2.2 (by decide)⟩

/-- C6: `ensureMatchPrefixes`, called with the pinned list, returns the pinned list followed
by `xxhashAsHex(name, 128)` for each name outside `skippedModulesPrefix`, in the order of the
names and once per occurrence; a skipped name contributes nothing. -/
theorem ensureMatchPrefixes_result (xxhashAsHex : String → Nat → String)
    (moduleNames : List String) :
    ensureMatchPrefixes xxhashAsHex pinnedPrefixes moduleNames =
        pinnedPrefixes ++ (moduleNames.filter (fun n => decide (n ∉ skippedModulesPrefix))).map
          (fun n => xxhashAsHex n 128) ∧
      (ensureMatchPrefixes xxhashAsHex pinnedPrefixes moduleNames).length =
        1 + (moduleNames.filter (fun n => decide (n ∉ skippedModulesPrefix))).length := by
  have hf : (fun n : String => !(skippedModulesPrefix.contains n)) =
      fun n => decide (n ∉ skippedModulesPrefix) := by
    funext n
    by_cases h : n ∈ skippedModulesPrefix <;> simp [h]
  have h := ensureMatchPrefixes_append xxhashAsHex pinnedPrefixes moduleNames
  rw [hf] at h
  refine ⟨h, ?_⟩
  rw [h, List.length_append, List.length_map]
  rfl

/-- C9: two allowlists with the same set of entries give the same merged document and the
same file; the filter keeps a sublist of the origin pairs, each matching pair as often as it
occurs among the origin pairs (once per occurrence, however many entries it matches) and no
other pair. -/
theorem mergeToForkSpec_allowlist_as_set {J : Type} (stringify : ForkedSpec J → String)
    (ALICE runtimeHex : String) (A B : List String) (hAB : ∀ p, p ∈ A ↔ p ∈ B)
    (originKvPairs : List KVPair) (forkedSpec : ForkedSpec J) :
    mergeToForkSpec ALICE runtimeHex A originKvPairs forkedSpec =
        mergeToForkSpec ALICE runtimeHex B originKvPairs forkedSpec ∧
      forkJsonWritten stringify ALICE runtimeHex A originKvPairs forkedSpec =
        forkJsonWritten stringify ALICE runtimeHex B originKvPairs forkedSpec ∧
      (originKvPairs.filter (matchesPrefixes A)).Sublist originKvPairs ∧
      ∀ kv : KVPair, (originKvPairs.filter (matchesPrefixes A)).count kv =
        if (∃ p ∈ A, startsWith kv.1 p = true) then originKvPairs.count kv else 0 := by
  have hm := matchesPrefixes_congr A B hAB
  have he : mergeToForkSpec ALICE runtimeHex A originKvPairs forkedSpec =
      mergeToForkSpec ALICE runtimeHex B originKvPairs forkedSpec := by
    unfold mergeToForkSpec mergeTop
    rw [hm]
  refine ⟨he, ?_, List.filter_sublist _, ?_⟩
  · unfold forkJsonWritten
    rw [he]
  · intro kv
    have hiff : matchesPrefixes A kv = true ↔ ∃ p ∈ A, startsWith kv.1 p = true := by
      simp only [matchesPrefixes, List.any_eq_true]
    by_cases hk : matchesPrefixes A kv = true
    · rw [if_pos (hiff.mp hk), List.count_filter hk]
    · rw [if_neg (fun h => hk (hiff.mpr h))]
      exact List.count_eq_zero_of_not_mem (fun hmem => hk (List.mem_filter.mp hmem).2)

/-- C9, on an allowlist with a repeated and a reordered entry. -/
theorem mergeToForkSpec_allowlist_as_set_witness :
    (∀ p, p ∈ ["0xAB", "0x", "0xAB"] ↔ p ∈ ["0x", "0xAB"]) ∧
    mergeToForkSpec "" "00" ["0xAB", "0x", "0xAB"] [("0xAB01", "v1"), ("0xCD02", "v2")]
        (ForkedSpec.mk (Genesis.mk (RawGenesis.mk [("0xAB01", "old")] []) []) [] :
          ForkedSpec Unit) =
      mergeToForkSpec "" "00" ["0x", "0xAB"] [("0xAB01", "v1"), ("0xCD02", "v2")]
        (ForkedSpec.mk (Genesis.mk (RawGenesis.mk [("0xAB01", "old")] []) []) [] :
          ForkedSpec Unit) := by
  have hset : ∀ p, p ∈ ["0xAB", "0x", "0xAB"] ↔ p ∈ ["0x", "0xAB"] := by
    intro p
    simp only [List.mem_cons, List.mem_singleton, List.not_mem_nil]
    tauto
  exact ⟨hset, (mergeToForkSpec_allowlist_as_set (fun _ => "") "" "00" ["0xAB", "0x", "0xAB"]
    ["0x", "0xAB"] hset [("0xAB01", "v1"), ("0xCD02", "v2")]
    (ForkedSpec.mk (Genesis.mk (RawGenesis.mk [("0xAB01", "old")] []) []) [] :
      ForkedSpec Unit)).1⟩

/-- C10: the merge leaves every member of the document outside `genesis.raw.top` as the
template had it: the other members of the document, of `genesis` and of `genesis.raw`. -/
theorem mergeToForkSpec_frame {J : Type} (ALICE runtimeHex : String) (prefixes : List String)
    (originKvPairs : List KVPair) (forkedSpec : ForkedSpec J) :
    (mergeToForkSpec ALICE runtimeHex prefixes originKvPairs forkedSpec).others =
        forkedSpec.others ∧
      (mergeToForkSpec ALICE runtimeHex prefixes originKvPairs forkedSpec).genesis.others =
        forkedSpec.genesis.others ∧
      (mergeToForkSpec ALICE runtimeHex prefixes originKvPairs forkedSpec).genesis.raw.others =
        forkedSpec.genesis.raw.others :=
  ⟨rfl, rfl, rfl⟩

/-- C5: merging is idempotent. Applying `mergeToForkSpec` with the same allowlist, pairs,
runtime code and `ALICE` to its own output gives the same document, the order of the keys of
`genesis.raw.top` included, hence the same bytes in `fork.json`; the template is any document
whose `genesis.raw.top` is an object (its keys are pairwise distinct). -/
theorem mergeToForkSpec_idempotent {J : Type} (stringify : ForkedSpec J → String)
    (ALICE runtimeHex : String) (prefixes : List String) (originKvPairs : List KVPair)
    (forkedSpec : ForkedSpec J) (hkeys : (objKeys forkedSpec.genesis.raw.top).Nodup) :
    mergeToForkSpec ALICE runtimeHex prefixes originKvPairs
        (mergeToForkSpec ALICE runtimeHex prefixes originKvPairs forkedSpec) =
      mergeToForkSpec ALICE runtimeHex prefixes originKvPairs forkedSpec ∧
    forkJsonWritten stringify ALICE runtimeHex prefixes originKvPairs
        (mergeToForkSpec ALICE runtimeHex prefixes originKvPairs forkedSpec) =
      forkJsonWritten stringify ALICE runtimeHex prefixes originKvPairs forkedSpec := by
  have he : mergeToForkSpec ALICE runtimeHex prefixes originKvPairs
        (mergeToForkSpec ALICE runtimeHex prefixes originKvPairs forkedSpec) =
      mergeToForkSpec ALICE runtimeHex prefixes originKvPairs forkedSpec := by
    unfold mergeToForkSpec
    simp only []
    rw [mergeTop_idempotent ALICE runtimeHex prefixes originKvPairs _ hkeys]
  refine ⟨he, ?_⟩
  unfold forkJsonWritten
  rw [he]

/-- C5, on a template that holds the deleted key first and pairs that set it again. -/
theorem mergeToForkSpec_idempotent_witness :
    (objKeys [(lastRuntimeUpgradeKey, "0x04"), ("0xAB01", "old")]).Nodup ∧
    mergeToForkSpec "1" "00" ["0x"] [("0xCD02", "v2"), (lastRuntimeUpgradeKey, "0x03")]
        (mergeToForkSpec "1" "00" ["0x"] [("0xCD02", "v2"), (lastRuntimeUpgradeKey, "0x03")]
          (ForkedSpec.mk (Genesis.mk (RawGenesis.mk
            [(lastRuntimeUpgradeKey, "0x04"), ("0xAB01", "old")] []) []) [] :
            ForkedSpec Unit)) =
      mergeToForkSpec "1" "00" ["0x"] [("0xCD02", "v2"), (lastRuntimeUpgradeKey, "0x03")]
        (ForkedSpec.mk (Genesis.mk (RawGenesis.mk
          [(lastRuntimeUpgradeKey, "0x04"), ("0xAB01", "old")] []) []) [] : ForkedSpec Unit) :=
  ⟨by decide, (mergeToForkSpec_idempotent (fun _ => "") "1" "00" ["0x"]
    [("0xCD02", "v2"), (lastRuntimeUpgradeKey, "0x03")]
    (ForkedSpec.mk (Genesis.mk (RawGenesis.mk
      [(lastRuntimeUpgradeKey, "0x04"), ("0xAB01", "old")] []) []) [] : ForkedSpec Unit)
    (by decide)).1⟩

/-! ## The enumeration of the leaves -/

set_option maxRecDepth 100000 in
theorem childSuffix_data : ∀ i : Fin 256, (childSuffix i.val).data =
    [hexDigitChars.getD (i.val / 16) '0', hexDigitChars.getD (i.val % 16) '0'] := by
  decide

set_option maxRecDepth 100000 in
theorem childSuffix_decode : ∀ i : Fin 256,
    16 * hexVal ((childSuffix i.val).data.getD 0 '0') +
      hexVal ((childSuffix i.val).data.getD 1 '0') = i.val := by
  decide

set_option maxRecDepth 100000 in
theorem childSuffix_hexVal : ∀ a ∈ hexDigitChars, ∀ b ∈ hexDigitChars,
    16 * hexVal a + hexVal b < 256 ∧ (childSuffix (16 * hexVal a + hexVal b)).data = [a, b] := by
  decide

set_option maxRecDepth 100000 in
theorem childSuffix_hex : ∀ i : Fin 256, ∀ c ∈ (childSuffix i.val).data, c ∈ hexDigitChars := by
  decide

theorem childSuffix_length (i : Nat) (h : i < 256) : (childSuffix i).data.length = 2 := by
  rw [childSuffix_data ⟨i, h⟩]
  rfl

theorem childSuffix_injective (i j : Nat) (hi : i < 256) (hj : j < 256)
    (h : childSuffix i = childSuffix j) : i = j := by
  have h1 := childSuffix_decode ⟨i, hi⟩
  have h2 := childSuffix_decode ⟨j, hj⟩
  simp only [] at h1 h2
  rw [h] at h1
  omega

theorem issueAll_nil (st : FetchState) : issueAll [] st = st := by
  simp [issueAll]

theorem issueAll_issueAll (ps qs : List String) (st : FetchState) :
    issueAll qs (issueAll ps st) = issueAll (ps ++ qs) st := by
  simp [issueAll]

theorem leafDone_issueAll (b : List KVPair) (ps : List String) (st : FetchState) :
    leafDone b (issueAll ps st) = issueAll ps (leafDone b st) := by
  unfold leafDone issueAll
  by_cases hb : b.length > 0 <;> by_cases hs : st.separator = true <;> simp [hb, hs]

theorem beginSpan_issueAll (ps : List String) (st : FetchState) :
    beginSpan (issueAll ps st) = issueAll ps (beginSpan st) := rfl

theorem beginSpan_stream (st : FetchState) : (beginSpan st).stream = st.stream := rfl

theorem beginSpan_separator (st : FetchState) : (beginSpan st).separator = st.separator := rfl

theorem beginSpan_queries (st : FetchState) : (beginSpan st).queries = st.queries := rfl

theorem deliver_issueAll (bs : List (List KVPair)) (ps : List String) (st : FetchState) :
    deliver bs (issueAll ps st) = issueAll ps (deliver bs st) := by
  unfold deliver
  induction bs generalizing st with
  | nil => rfl
  | cons b bs ih =>
    rw [List.foldl_cons, List.foldl_cons, beginSpan_issueAll, leafDone_issueAll, ih]

theorem deliver_append (as bs : List (List KVPair)) (st : FetchState) :
    deliver (as ++ bs) st = deliver bs (deliver as st) := by
  unfold deliver
  rw [List.foldl_append]

/-- A sequential loop whose steps all succeed. -/
theorem foldlM_ok {α : Type} (f : FetchState → α → Except FetchState FetchState)
    (g : α → FetchState → FetchState) (hf : ∀ s a, f s a = Except.ok (g a s)) (l : List α)
    (st : FetchState) : l.foldlM f st = Except.ok (l.foldl (fun s a => g a s) st) := by
  induction l generalizing st with
  | nil => rfl
  | cons a l ih =>
    rw [List.foldlM_cons, hf, List.foldl_cons]
    exact ih (g a st)

theorem foldl_deliver_issueAll {α : Type} (C : α → List (List KVPair)) (L : α → List String)
    (l : List α) (st : FetchState) :
    l.foldl (fun s a => deliver (C a) (issueAll (L a) s)) st =
      deliver (l.flatMap C) (issueAll (l.flatMap L) st) := by
  induction l generalizing st with
  | nil => simp [deliver, issueAll_nil]
  | cons a l ih =>
    rw [List.foldl_cons, ih, List.flatMap_cons, List.flatMap_cons, deliver_append,
      ← issueAll_issueAll, deliver_issueAll (C a) (l.flatMap L)]

theorem foldl_issueQuery (f : Nat → String) (l : List Nat) (st : FetchState) :
    l.foldl (fun s i => issueQuery (f i) s) st = issueAll (l.map f) st := by
  induction l generalizing st with
  | nil => simp [issueAll_nil]
  | cons a l ih =>
    rw [List.foldl_cons, ih, List.map_cons]
    simp [issueAll, issueQuery]

theorem foldl_leafDone {α : Type} (f : α → List KVPair) (l : List α) (st : FetchState) :
    l.foldl (fun s a => leafDone (f a) (beginSpan s)) st = deliver (l.map f) st := by
  unfold deliver
  rw [List.foldl_map]

theorem leafPrefixes_one (pfx : String) :
    leafPrefixes 1 pfx = (List.range 256).map (fun i => pfx ++ childSuffix i) := by
  unfold leafPrefixes
  generalize List.range 256 = l
  induction l with
  | nil => rfl
  | cons a l ih =>
    rw [List.flatMap_cons, ih]
    rfl

/-- When every request is answered, `fetchChunks` succeeds: it has sent the queries of the
leaves in ascending order and handled the responses in completion order. -/
theorem fetchChunks_ok (responses : String → String → List KVPair) (QUICK_MODE : Bool)
    (completion : String → Equiv.Perm (Fin 256)) (atHash : String) (d : Nat) (pfx : String)
    (st : FetchState) :
    fetchChunks (fun p a => some (responses p a)) QUICK_MODE completion atHash d pfx st =
      Except.ok (deliver ((completionOrder QUICK_MODE completion d pfx).map
        (fun p => responses p atHash)) (issueAll (leafPrefixes d pfx) st)) := by
  induction d generalizing pfx st with
  | zero =>
    simp [fetchChunks, leafResume, completionOrder, leafPrefixes, deliver, issueAll, issueQuery]
  | succ d ih =>
    unfold fetchChunks completionOrder
    by_cases hq : (QUICK_MODE && (d + 1 == 1)) = true
    · have hd : d = 0 := by
        simp only [Bool.and_eq_true, beq_iff_eq] at hq
        omega
      subst hd
      rw [if_pos hq, if_pos hq]
      simp only []
      rw [foldl_issueQuery, ← leafPrefixes_one]
      rw [foldlM_ok (fun s i => leafResume (fun p a => some (responses p a))
        (pfx ++ childSuffix i) atHash s) (fun i s => leafDone (responses (pfx ++ childSuffix i)
        atHash) (beginSpan s)) (fun s a => rfl)]
      rw [foldl_leafDone (fun i => responses (pfx ++ childSuffix i) atHash)]
      simp only [List.map_map, Function.comp_def, Nat.zero_add]
    · rw [if_neg hq, if_neg hq]
      rw [foldlM_ok (fun s i => fetchChunks (fun p a => some (responses p a)) QUICK_MODE
        completion atHash d (pfx ++ childSuffix i) s)
        (fun i s => deliver ((completionOrder QUICK_MODE completion d
          (pfx ++ childSuffix i)).map (fun p => responses p atHash))
          (issueAll (leafPrefixes d (pfx ++ childSuffix i)) s))
        (fun s a => ih (pfx ++ childSuffix a) s)]
      rw [foldl_deliver_issueAll (fun i => (completionOrder QUICK_MODE completion d
          (pfx ++ childSuffix i)).map (fun p => responses p atHash))
        (fun i => leafPrefixes d (pfx ++ childSuffix i))]
      rw [List.map_flatMap]
      rfl

theorem leafPrefixes_length (d : Nat) (pfx : String) : (leafPrefixes d pfx).length = 256 ^ d := by
  induction d generalizing pfx with
  | zero => rfl
  | succ d ih =>
    unfold leafPrefixes
    rw [List.length_flatMap]
    have hc : (List.length ∘ fun i => leafPrefixes d (pfx ++ childSuffix i)) =
        fun _ => 256 ^ d := by
      funext i
      exact ih _
    rw [hc]
    have hsum : ∀ l : List Nat, (l.map (fun _ => 256 ^ d)).sum = l.length * 256 ^ d := by
      intro l
      induction l with
      | nil => simp
      | cons a l ihl =>
        rw [List.map_cons, List.sum_cons, ihl, List.length_cons]
        ring
    rw [hsum, List.length_range, pow_succ, Nat.mul_comm]

theorem string_append_mk (p : String) (a b : List Char) :
    p ++ String.mk a ++ String.mk b = p ++ String.mk (a ++ b) := by
  rw [String.append_assoc]
  rfl

theorem string_mk_data (s : String) : String.mk s.data = s := rfl

/-- The leaves at depth `d` below `pfx` are `pfx` followed by `2 * d` hexadecimal digits. -/
theorem mem_leafPrefixes (d : Nat) (pfx s : String) :
    s ∈ leafPrefixes d pfx ↔
      ∃ ds : List Char, ds.length = 2 * d ∧ (∀ c ∈ ds, c ∈ hexDigitChars) ∧
        s = pfx ++ String.mk ds := by
  induction d generalizing pfx with
  | zero =>
    simp only [leafPrefixes, List.mem_singleton, Nat.mul_zero, List.length_eq_zero]
    constructor
    · intro h
      exact ⟨[], rfl, by simp, by rw [h]; exact (String.append_empty pfx).symm⟩
    · rintro ⟨ds, rfl, _, h⟩
      rw [h]
      exact String.append_empty pfx
  | succ d ih =>
    unfold leafPrefixes
    rw [List.mem_flatMap]
    constructor
    · rintro ⟨i, hi, hs⟩
      rw [List.mem_range] at hi
      obtain ⟨ds, hlen, hhex, hs2⟩ := (ih _).mp hs
      refine ⟨(childSuffix i).data ++ ds, ?_, ?_, ?_⟩
      · rw [List.length_append, childSuffix_length i hi, hlen]
        omega
      · intro c hc
        rcases List.mem_append.mp hc with h1 | h1
        · exact childSuffix_hex ⟨i, hi⟩ c h1
        · exact hhex c h1
      · rw [hs2, ← string_append_mk, string_mk_data]
    · rintro ⟨ds, hlen, hhex, hs⟩
      match ds, hlen, hhex, hs with
      | a :: b :: ds', hlen, hhex, hs =>
        have ha : a ∈ hexDigitChars := hhex a (by simp)
        have hb : b ∈ hexDigitChars := hhex b (by simp)
        obtain ⟨hlt, hdata⟩ := childSuffix_hexVal a ha b hb
        refine ⟨16 * hexVal a + hexVal b, List.mem_range.mpr hlt, (ih _).mpr ⟨ds', ?_, ?_, ?_⟩⟩
        · simp only [List.length_cons] at hlen
          omega
        · intro c hc
          exact hhex c (by simp [hc])
        · rw [hs]
          have : childSuffix (16 * hexVal a + hexVal b) = String.mk [a, b] := by
            rw [← hdata]
          rw [this, string_append_mk]
          rfl
      | [], hlen, _, _ => simp at hlen
      | [a], hlen, _, _ =>
        simp only [List.length_singleton] at hlen
        omega

theorem leafPrefixes_shape (d : Nat) (pfx s : String) (h : s ∈ leafPrefixes d pfx) :
    pfx.data <+: s.data ∧ s.data.length = pfx.data.length + 2 * d := by
  obtain ⟨ds, hlen, _, hs⟩ := (mem_leafPrefixes d pfx s).mp h
  subst hs
  rw [String.data_append]
  exact ⟨List.prefix_append _ _, by rw [List.length_append, ← hlen]⟩

theorem leafPrefixes_nodup (d : Nat) (pfx : String) : (leafPrefixes d pfx).Nodup := by
  induction d generalizing pfx with
  | zero => simp [leafPrefixes]
  | succ d ih =>
    unfold leafPrefixes
    rw [List.nodup_flatMap]
    refine ⟨fun i _ => ih _, ?_⟩
    apply List.Pairwise.imp_of_mem (R := fun i j => i ≠ j)
    · intro i j hi hj hij
      rw [List.mem_range] at hi hj
      show List.Disjoint _ _
      intro s hs1 hs2
      obtain ⟨hp1, hl1⟩ := leafPrefixes_shape d _ s hs1
      obtain ⟨hp2, _⟩ := leafPrefixes_shape d _ s hs2
      have hle : (pfx ++ childSuffix i).data.length ≤ (pfx ++ childSuffix j).data.length := by
        rw [String.data_append, String.data_append, List.length_append, List.length_append,
          childSuffix_length i hi, childSuffix_length j hj]
      have hpre := List.prefix_of_prefix_length_le hp1 hp2 hle
      have heq : (pfx ++ childSuffix i).data = (pfx ++ childSuffix j).data := by
        apply hpre.eq_of_length
        rw [String.data_append, String.data_append, List.length_append, List.length_append,
          childSuffix_length i hi, childSuffix_length j hj]
      rw [String.data_append, String.data_append] at heq
      have := List.append_cancel_left heq
      exact hij (childSuffix_injective i j hi hj (String.ext this))
    · exact List.nodup_range 256

theorem hexBytes_append (a b : List (Fin 256)) : hexBytes (a ++ b) = hexBytes a ++ hexBytes b := by
  induction a with
  | nil => simp [hexBytes]
  | cons x a ih =>
    show childSuffix x.val ++ hexBytes (a ++ b) = childSuffix x.val ++ hexBytes a ++ hexBytes b
    rw [ih, String.append_assoc]

theorem hexBytes_mem_leafPrefixes (bs : List (Fin 256)) (pfx : String) :
    pfx ++ hexBytes bs ∈ leafPrefixes bs.length pfx := by
  induction bs generalizing pfx with
  | nil => simp [hexBytes, leafPrefixes]
  | cons b bs ih =>
    simp only [List.length_cons, leafPrefixes, List.mem_flatMap, List.mem_range, hexBytes]
    refine ⟨b.val, b.isLt, ?_⟩
    rw [← String.append_assoc]
    exact ih _

theorem startsWith_iff (s p : String) : startsWith s p = true ↔ p.data <+: s.data := by
  unfold startsWith
  exact List.isPrefixOf_iff_prefix

/-- Two leaves at the same depth of which one starts with the other are equal. -/
theorem leafPrefixes_antichain (d : Nat) (pfx p q : String) (hp : p ∈ leafPrefixes d pfx)
    (hq : q ∈ leafPrefixes d pfx) (h : startsWith q p = true) : p = q := by
  have h1 := (leafPrefixes_shape d pfx p hp).2
  have h2 := (leafPrefixes_shape d pfx q hq).2
  exact String.ext (((startsWith_iff q p).mp h).eq_of_length (by rw [h1, h2]))

/-- A key of at least `d` bytes starts with exactly one leaf of depth `d`. -/
theorem leafPrefixes_cover (d : Nat) (key : List (Fin 256)) (hd : d ≤ key.length) :
    ∃! p, p ∈ leafPrefixes d "0x" ∧ startsWith (hexOfBytes key) p = true := by
  have hlen : (key.take d).length = d := by
    rw [List.length_take]
    omega
  have hmem : "0x" ++ hexBytes (key.take d) ∈ leafPrefixes d "0x" := by
    have := hexBytes_mem_leafPrefixes (key.take d) "0x"
    rwa [hlen] at this
  have hpre : startsWith (hexOfBytes key) ("0x" ++ hexBytes (key.take d)) = true := by
    rw [startsWith_iff]
    unfold hexOfBytes
    conv => rhs; rw [← List.take_append_drop d key, hexBytes_append, ← String.append_assoc]
    rw [String.data_append ("0x" ++ hexBytes (key.take d))]
    exact List.prefix_append _ _
  refine ⟨"0x" ++ hexBytes (key.take d), ⟨hmem, hpre⟩, ?_⟩
  rintro q ⟨hq, hqpre⟩
  have h1 := (leafPrefixes_shape d "0x" _ hmem).2
  have h2 := (leafPrefixes_shape d "0x" q hq).2
  have hqp := List.prefix_of_prefix_length_le ((startsWith_iff _ _).mp hqpre)
    ((startsWith_iff _ _).mp hpre) (by rw [h1, h2])
  exact String.ext (hqp.eq_of_length (by rw [h1, h2]))

theorem leafDone_queries (b : List KVPair) (st : FetchState) :
    (leafDone b st).queries = st.queries := by
  unfold leafDone
  by_cases hb : b.length > 0 <;> by_cases hs : st.separator = true <;> simp [hb, hs]

theorem deliver_queries (bs : List (List KVPair)) (st : FetchState) :
    (deliver bs st).queries = st.queries := by
  unfold deliver
  induction bs generalizing st with
  | nil => rfl
  | cons b bs ih => rw [List.foldl_cons, ih, leafDone_queries, beginSpan_queries]

/-! ## Properties of the enumeration -/

/-- C1: for every depth `d`, in sequential and in quick mode, `fetchChunks` started at "0x"
with `levelsRemaining = d` (every request being answered) returns after sending exactly the
queries `leafPrefixes d "0x"`: there are `256 ^ d` of them, no prefix is queried twice, they
are exactly the strings "0x" followed by `2 * d` lowercase hexadecimal digits, no one is an
initial segment of another, and every key of at least `d` bytes starts with exactly one of
them; for `d = 0` the single query is "0x". -/
theorem fetchChunks_leaf_queries (responses : String → String → List KVPair)
    (QUICK_MODE : Bool) (completion : String → Equiv.Perm (Fin 256)) (atHash : String)
    (d : Nat) (st : FetchState) :
    (∃ st', fetchChunks (fun p a => some (responses p a)) QUICK_MODE completion atHash d "0x"
        st = Except.ok st' ∧ st'.queries = st.queries ++ leafPrefixes d "0x") ∧
      (leafPrefixes d "0x").length = 256 ^ d ∧
      (leafPrefixes d "0x").Nodup ∧
      (∀ s, s ∈ leafPrefixes d "0x" ↔
        ∃ ds : List Char, ds.length = 2 * d ∧ (∀ c ∈ ds, c ∈ hexDigitChars) ∧
          s = "0x" ++ String.mk ds) ∧
      (∀ p ∈ leafPrefixes d "0x", ∀ q ∈ leafPrefixes d "0x", startsWith q p = true → p = q) ∧
      (∀ key : List (Fin 256), d ≤ key.length →
        ∃! p, p ∈ leafPrefixes d "0x" ∧ startsWith (hexOfBytes key) p = true) ∧
      leafPrefixes 0 "0x" = ["0x"] := by
  refine ⟨⟨_, fetchChunks_ok responses QUICK_MODE completion atHash d "0x" st, ?_⟩,
    leafPrefixes_length d "0x", leafPrefixes_nodup d "0x", mem_leafPrefixes d "0x",
    fun p hp q hq h => leafPrefixes_antichain d "0x" p q hp hq h,
    fun key hd => leafPrefixes_cover d key hd, rfl⟩
  rw [deliver_queries]
  rfl

/-- C1, on a two-byte key at depth 1: it starts with exactly one of the 256 leaves. -/
theorem fetchChunks_leaf_queries_witness :
    1 ≤ [(171 : Fin 256), (1 : Fin 256)].length ∧
      ∃! p, p ∈ leafPrefixes 1 "0x" ∧
        startsWith (hexOfBytes [(171 : Fin 256), (1 : Fin 256)]) p = true :=
  ⟨by decide, (fetchChunks_leaf_queries (fun _ _ => []) true (fun _ => Equiv.refl _) "0x00" 1
    initialFetchState).2.2.2.2.2.1 [(171 : Fin 256), (1 : Fin 256)] (by decide)⟩

/-! ## The streaming collector -/

theorem joinWith_cons_cons (sep a b : String) (rest : List String) :
    joinWith sep (a :: b :: rest) = a ++ sep ++ joinWith sep (b :: rest) := rfl

theorem joinWith_append (sep : String) (a b : List String) (ha : a ≠ []) (hb : b ≠ []) :
    joinWith sep (a ++ b) = joinWith sep a ++ sep ++ joinWith sep b := by
  induction a with
  | nil => exact absurd rfl ha
  | cons x a ih =>
    cases a with
    | nil =>
      cases b with
      | nil => exact absurd rfl hb
      | cons y b => rfl
    | cons x' a =>
      rw [List.cons_append, List.cons_append, joinWith_cons_cons, ← List.cons_append,
        ih (by simp), joinWith_cons_cons]
      simp only [String.append_assoc]

/-- Joining the joined batches is joining the concatenation of the batches. -/
theorem joinWith_flatten (sep : String) (L : List (List String)) (hL : ∀ l ∈ L, l ≠ []) :
    joinWith sep (L.map (joinWith sep)) = joinWith sep L.flatten := by
  induction L with
  | nil => rfl
  | cons a L ih =>
    cases L with
    | nil => simp [joinWith]
    | cons b L =>
      have ha : a ≠ [] := hL a (by simp)
      have hb : b ≠ [] := hL b (by simp)
      rw [List.map_cons, List.map_cons, joinWith_cons_cons, ← List.map_cons,
        ih (fun l hl => hL l (List.mem_cons_of_mem _ hl)),
        @List.flatten_cons _ a (b :: L),
        joinWith_append sep a _ ha (by simp [hb])]

theorem slice1_brackets (x : String) : slice1 ("[" ++ x ++ "]") = x := by
  apply String.ext
  unfold slice1
  simp only [String.data_append]
  show ((['['] ++ x.data ++ [']']).drop 1).dropLast = x.data
  simp

theorem slice1_JSON_stringify (pairs : List KVPair) :
    slice1 (JSON_stringify pairs) = joinWith "," (pairs.map stringifyPair) :=
  slice1_brackets _

theorem concatChunks_append (a b : List String) :
    concatChunks (a ++ b) = concatChunks a ++ concatChunks b := by
  induction a with
  | nil => exact (String.empty_append _).symm
  | cons x a ih =>
    show x ++ concatChunks (a ++ b) = x ++ concatChunks a ++ concatChunks b
    rw [ih, String.append_assoc]

theorem concatChunks_intersperse (sep : String) (xs : List String) :
    concatChunks (List.intersperse sep xs) = joinWith sep xs := by
  induction xs with
  | nil => rfl
  | cons x xs ih =>
    cases xs with
    | nil => exact String.append_empty x
    | cons y xs =>
      rw [List.intersperse_cons_cons, joinWith_cons_cons, ← ih]
      simp only [concatChunks, String.append_assoc]

theorem intersperse_cons (sep x : String) (xs : List String) :
    List.intersperse sep (x :: xs) = x :: xs.flatMap (fun y => [sep, y]) := by
  induction xs generalizing x with
  | nil => rfl
  | cons y xs ih => rw [List.intersperse_cons_cons, ih, List.flatMap_cons]; rfl

theorem nonEmptyBatches_cons (b : List KVPair) (bs : List (List KVPair)) :
    nonEmptyBatches (b :: bs) =
      if b.length > 0 then b :: nonEmptyBatches bs else nonEmptyBatches bs := by
  unfold nonEmptyBatches
  by_cases h : b.length > 0 <;> simp [List.filter_cons, h]

/-- Once a batch has been written, each further non-empty batch writes "," and its interior;
an empty batch writes nothing. -/
theorem deliver_stream_of_separator (bs : List (List KVPair)) (st : FetchState)
    (hs : st.separator = true) :
    (deliver bs st).stream = st.stream ++
      ((nonEmptyBatches bs).map (fun b => slice1 (JSON_stringify b))).flatMap
        (fun y => [",", y]) := by
  unfold deliver
  induction bs generalizing st with
  | nil => simp [nonEmptyBatches]
  | cons b bs ih =>
    rw [List.foldl_cons, nonEmptyBatches_cons]
    by_cases hb : b.length > 0
    · rw [ih _ (by simp [leafDone, beginSpan, hb, hs]), if_pos hb]
      simp [leafDone, beginSpan, hb, hs]
    · rw [ih _ (by simp [leafDone, beginSpan, hb, hs]), if_neg hb]
      simp [leafDone, beginSpan, hb]

/-- From a fresh stream state the batches are written with "," between them and nowhere
else. -/
theorem deliver_stream (bs : List (List KVPair)) (st : FetchState)
    (hs : st.separator = false) :
    (deliver bs st).stream = st.stream ++
      List.intersperse "," ((nonEmptyBatches bs).map (fun b => slice1 (JSON_stringify b))) := by
  induction bs generalizing st with
  | nil => simp [deliver, nonEmptyBatches]
  | cons b bs ih =>
    rw [nonEmptyBatches_cons]
    by_cases hb : b.length > 0
    · rw [if_pos hb, List.map_cons, intersperse_cons]
      show (deliver bs (leafDone b (beginSpan st))).stream = _
      rw [deliver_stream_of_separator bs _ (by simp [leafDone, beginSpan, hb, hs])]
      simp [leafDone, beginSpan, hb, hs]
    · rw [if_neg hb]
      show (deliver bs (leafDone b (beginSpan st))).stream = _
      rw [ih _ (by simp [leafDone, beginSpan, hb, hs])]
      simp [leafDone, beginSpan, hb]

theorem deliver_issueAll_stream (bs : List (List KVPair)) (ps : List String) (st : FetchState) :
    (deliver bs (issueAll ps st)).stream = (deliver bs st).stream := by
  rw [deliver_issueAll]
  rfl

theorem flatten_nonEmptyBatches (bs : List (List KVPair)) :
    (nonEmptyBatches bs).flatten = bs.flatten := by
  induction bs with
  | nil => rfl
  | cons b bs ih =>
    rw [nonEmptyBatches_cons]
    by_cases hb : b.length > 0
    · rw [if_pos hb, List.flatten_cons, List.flatten_cons, ih]
    · rw [if_neg hb, List.flatten_cons, ih]
      have : b = [] := by
        cases b with
        | nil => rfl
        | cons x b => exact absurd (Nat.succ_pos _) hb
      rw [this]
      rfl

/-- The interiors of the non-empty batches, joined by ",", are the interior of the array of
all pairs. -/
theorem joinWith_interiors (bs : List (List KVPair)) :
    joinWith "," ((nonEmptyBatches bs).map (fun b => slice1 (JSON_stringify b))) =
      joinWith "," (bs.flatten.map stringifyPair) := by
  have h1 : (nonEmptyBatches bs).map (fun b => slice1 (JSON_stringify b)) =
      ((nonEmptyBatches bs).map (fun b => b.map stringifyPair)).map (joinWith ",") := by
    rw [List.map_map]
    apply List.map_congr_left
    intro b _
    exact slice1_JSON_stringify b
  rw [h1, joinWith_flatten, ← flatten_nonEmptyBatches, List.map_flatten]
  intro l hl
  obtain ⟨b, hb, rfl⟩ := List.mem_map.mp hl
  have hpos : b.length > 0 := by
    have := (List.mem_filter.mp hb).2
    simpa using this
  cases b with
  | nil => exact absurd hpos (by simp)
  | cons x b => simp

theorem interior_ne_comma (b : List KVPair) (hb : b.length > 0) :
    slice1 (JSON_stringify b) ≠ "," := by
  rw [slice1_JSON_stringify]
  cases b with
  | nil => exact absurd hb (by simp)
  | cons x b =>
    intro h
    have hd := congrArg String.data h
    cases b with
    | nil =>
      simp only [List.map_cons, List.map_nil, joinWith, stringifyPair, String.data_append] at hd
      exact absurd hd (by simp [String.data])
    | cons y b =>
      simp only [List.map_cons, joinWith, stringifyPair, String.data_append] at hd
      exact absurd hd (by simp [String.data])

theorem count_comma_intersperse (xs : List String) (h : ∀ x ∈ xs, x ≠ ",") :
    (List.intersperse "," xs).count "," = xs.length - 1 := by
  induction xs with
  | nil => rfl
  | cons x xs ih =>
    cases xs with
    | nil =>
      have hx : x ≠ "," := h x (by simp)
      simp [List.count_cons, hx]
    | cons y xs =>
      have hx : x ≠ "," := h x (by simp)
      rw [List.intersperse_cons_cons, List.count_cons, List.count_cons,
        ih (fun z hz => h z (List.mem_cons_of_mem _ hz))]
      simp [hx]

/-! ## `JSON.parse` on what `JSON.stringify` writes -/

theorem jsonEscape_plain (c : Char) (h1 : c ≠ quoteChar) (h2 : c ≠ backslash)
    (h3 : 32 ≤ c.toNat) : jsonEscape c = [c] := by
  have h8 : c ≠ Char.ofNat 8 := by
    intro h
    rw [h] at h3
    exact absurd h3 (by decide)
  have h12 : c ≠ Char.ofNat 12 := by
    intro h
    rw [h] at h3
    exact absurd h3 (by decide)
  have h10 : c ≠ Char.ofNat 10 := by
    intro h
    rw [h] at h3
    exact absurd h3 (by decide)
  have h13 : c ≠ Char.ofNat 13 := by
    intro h
    rw [h] at h3
    exact absurd h3 (by decide)
  have h9 : c ≠ Char.ofNat 9 := by
    intro h
    rw [h] at h3
    exact absurd h3 (by decide)
  unfold jsonEscape
  rw [if_neg h1, if_neg h2, if_neg h8, if_neg h12, if_neg h10, if_neg h13, if_neg h9,
    if_neg (by omega)]

theorem plainString_iff (s : String) :
    plainString s = true ↔ ∀ c ∈ s.data, c ≠ quoteChar ∧ c ≠ backslash ∧ 32 ≤ c.toNat := by
  unfold plainString
  simp only [List.all_eq_true, Bool.and_eq_true, decide_eq_true_eq, and_assoc]

theorem flatMap_jsonEscape_plain (cs : List Char)
    (h : ∀ c ∈ cs, c ≠ quoteChar ∧ c ≠ backslash ∧ 32 ≤ c.toNat) :
    cs.flatMap jsonEscape = cs := by
  induction cs with
  | nil => rfl
  | cons c cs ih =>
    obtain ⟨h1, h2, h3⟩ := h c (by simp)
    rw [List.flatMap_cons, jsonEscape_plain c h1 h2 h3,
      ih (fun x hx => h x (List.mem_cons_of_mem _ hx))]
    rfl

theorem quoteJSONString_plain (s : String) (h : plainString s = true) :
    (quoteJSONString s).data = quoteChar :: (s.data ++ [quoteChar]) := by
  unfold quoteJSONString
  rw [flatMap_jsonEscape_plain s.data ((plainString_iff s).mp h)]

/-- Decoding the code units of a character gives the character back. -/
theorem utf16Decode_utf16_append (c : Char) (us : List Nat) :
    utf16Decode (utf16 c ++ us) = c :: utf16Decode us := by
  have hv : c.toNat < 55296 ∨ (57343 < c.toNat ∧ c.toNat < 1114112) := c.valid
  unfold utf16
  by_cases hb : c.toNat < 65536
  · rw [if_pos hb]
    have hs : ¬ (55296 ≤ c.toNat ∧ c.toNat ≤ 57343) := by omega
    have hh : ¬ (55296 ≤ c.toNat ∧ c.toNat ≤ 56319) := by omega
    have hl : ¬ (56320 ≤ c.toNat ∧ c.toNat ≤ 57343) := by omega
    cases us with
    | nil =>
      show utf16Decode [c.toNat] = _
      simp only [utf16Decode, if_neg hs, Char.ofNat_toNat]
    | cons l rest =>
      show utf16Decode (c.toNat :: l :: rest) = _
      rw [utf16Decode, if_neg hh, if_neg hl, Char.ofNat_toNat]
  · rw [if_neg hb]
    show utf16Decode ((55296 + (c.toNat - 65536) / 1024) ::
      (56320 + (c.toNat - 65536) % 1024) :: us) = _
    have hh : 55296 ≤ 55296 + (c.toNat - 65536) / 1024 ∧
        55296 + (c.toNat - 65536) / 1024 ≤ 56319 := by omega
    have hl : 56320 ≤ 56320 + (c.toNat - 65536) % 1024 ∧
        56320 + (c.toNat - 65536) % 1024 ≤ 57343 := by omega
    rw [utf16Decode, if_pos hh, if_pos hl]
    have hn : 65536 + (55296 + (c.toNat - 65536) / 1024 - 55296) * 1024 +
        (56320 + (c.toNat - 65536) % 1024 - 56320) = c.toNat := by omega
    rw [hn, Char.ofNat_toNat]

theorem utf16Decode_flatMap (cs : List Char) : utf16Decode (cs.flatMap utf16) = cs := by
  induction cs with
  | nil => rfl
  | cons c cs ih => rw [List.flatMap_cons, utf16Decode_utf16_append, ih]

theorem scanString_plain (cs rest : List Char)
    (h : ∀ c ∈ cs, c ≠ quoteChar ∧ c ≠ backslash ∧ 32 ≤ c.toNat) :
    scanString StringState.plain (cs ++ quoteChar :: rest) = some (cs.flatMap utf16, rest) := by
  induction cs with
  | nil => simp [scanString]
  | cons c cs ih =>
    obtain ⟨h1, h2, h3⟩ := h c (by simp)
    rw [List.cons_append, scanString, if_neg h1, if_neg h2, if_neg (by omega),
      ih (fun x hx => h x (List.mem_cons_of_mem _ hx))]
    rfl

theorem skipWs_cons (c : Char) (cs : List Char) (h : isJsonWhitespace c = false) :
    skipWs (c :: cs) = c :: cs := by
  rw [skipWs, h]
  rfl

theorem parseValue_nil (fuel : Nat) : parseValue fuel [] = none := by
  cases fuel with
  | zero => rfl
  | succ fuel => rfl

theorem parseElements_nil (fuel : Nat) : parseElements fuel [] = none := by
  cases fuel with
  | zero => rfl
  | succ fuel => rfl

theorem parseElements_close (fuel : Nat) (rest : List Char) :
    parseElements (fuel + 1) (']' :: rest) = some ([], rest) := by
  rw [parseElements, skipWs_cons _ _ (by decide)]
  simp

theorem parseElements_comma (fuel : Nat) (rest : List Char) :
    parseElements (fuel + 1) (',' :: rest) =
      (parseValue fuel rest).bind fun vr =>
        (parseElements fuel vr.2).map fun er => (vr.1 :: er.1, er.2) := by
  rw [parseElements, skipWs_cons _ _ (by decide)]
  simp

theorem parseValue_quote (fuel : Nat) (rest : List Char) :
    parseValue (fuel + 1) (quoteChar :: rest) =
      (scanString StringState.plain rest).map fun sr =>
        (Json.str (String.mk (utf16Decode sr.1)), sr.2) := by
  rw [parseValue, skipWs_cons _ _ (by decide)]
  have h1 : quoteChar ≠ '[' := by decide
  have h2 : quoteChar ≠ openBrace := by decide
  simp [h1, h2]

theorem parseValue_bracket (fuel : Nat) (d : Char) (rest : List Char)
    (hws : isJsonWhitespace d = false) (hd : d ≠ ']') :
    parseValue (fuel + 1) ('[' :: d :: rest) =
      (parseValue fuel (d :: rest)).bind fun vr =>
        (parseElements fuel vr.2).map fun er => (Json.arr (vr.1 :: er.1), er.2) := by
  rw [parseValue, skipWs_cons _ _ (by decide)]
  simp only [if_true]
  rw [skipWs_cons _ _ hws]
  simp [hd]

/-- Reading back a string written by `JSON.stringify`. -/
theorem parseValue_quoted (fuel : Nat) (s : String) (rest : List Char)
    (h : plainString s = true) :
    parseValue (fuel + 1) ((quoteJSONString s).data ++ rest) = some (Json.str s, rest) := by
  rw [quoteJSONString_plain s h]
  show parseValue (fuel + 1) (quoteChar :: (s.data ++ [quoteChar] ++ rest)) = _
  rw [parseValue_quote, List.append_assoc]
  show Option.map _ (scanString StringState.plain (s.data ++ quoteChar :: rest)) = _
  rw [scanString_plain s.data rest ((plainString_iff s).mp h)]
  show some (Json.str (String.mk (utf16Decode (s.data.flatMap utf16))), rest) = _
  rw [utf16Decode_flatMap]

theorem stringifyPair_data (kv : KVPair) :
    (stringifyPair kv).data =
      '[' :: ((quoteJSONString kv.1).data ++ ',' :: ((quoteJSONString kv.2).data ++ [']'])) := by
  unfold stringifyPair
  simp only [String.data_append]
  show ['['] ++ _ ++ [','] ++ _ ++ [']'] = _
  simp

theorem quoteJSONString_data_cons (s : String) :
    ∃ t, (quoteJSONString s).data = quoteChar :: t := ⟨_, rfl⟩

theorem stringifyPair_data_append (kv : KVPair) (rest : List Char) :
    (stringifyPair kv).data ++ rest =
      '[' :: ((quoteJSONString kv.1).data ++
        ',' :: ((quoteJSONString kv.2).data ++ ']' :: rest)) := by
  rw [stringifyPair_data]
  simp

/-- Reading back one pair written by `JSON.stringify`, with fuel for its three levels. -/
theorem parseValue_stringifyPair (fuel : Nat) (kv : KVPair) (rest : List Char)
    (h : plainPair kv = true) :
    parseValue (fuel + 3) ((stringifyPair kv).data ++ rest) = some (pairJson kv, rest) := by
  unfold plainPair at h
  rw [Bool.and_eq_true] at h
  obtain ⟨hk, hv⟩ := h
  rw [stringifyPair_data_append]
  obtain ⟨t, ht⟩ := quoteJSONString_data_cons kv.1
  have hb := parseValue_bracket (fuel + 2) quoteChar
    (t ++ ',' :: ((quoteJSONString kv.2).data ++ ']' :: rest)) (by decide) (by decide)
  rw [← List.cons_append, ← ht] at hb
  rw [hb, parseValue_quoted (fuel + 1) kv.1 _ hk, Option.some_bind]
  simp only []
  rw [parseElements_comma, parseValue_quoted fuel kv.2 _ hv, Option.some_bind]
  simp only []
  rw [parseElements_close]
  rfl

/-- With any fuel, a pair written by `JSON.stringify` is read back or the fuel runs out. -/
theorem parseValue_stringifyPair_cases (fuel : Nat) (kv : KVPair) (rest : List Char)
    (h : plainPair kv = true) :
    parseValue fuel ((stringifyPair kv).data ++ rest) = none ∨
      parseValue fuel ((stringifyPair kv).data ++ rest) = some (pairJson kv, rest) := by
  match fuel with
  | 0 => exact Or.inl rfl
  | 1 =>
    left
    rw [stringifyPair_data_append]
    obtain ⟨t, ht⟩ := quoteJSONString_data_cons kv.1
    have hb := parseValue_bracket 0 quoteChar
      (t ++ ',' :: ((quoteJSONString kv.2).data ++ ']' :: rest)) (by decide) (by decide)
    rw [← List.cons_append, ← ht] at hb
    rw [hb]
    rfl
  | 2 =>
    left
    unfold plainPair at h
    rw [Bool.and_eq_true] at h
    rw [stringifyPair_data_append]
    obtain ⟨t, ht⟩ := quoteJSONString_data_cons kv.1
    have hb := parseValue_bracket 1 quoteChar
      (t ++ ',' :: ((quoteJSONString kv.2).data ++ ']' :: rest)) (by decide) (by decide)
    rw [← List.cons_append, ← ht] at hb
    rw [hb, parseValue_quoted 0 kv.1 _ h.1, Option.some_bind]
    simp only []
    rw [parseElements_comma]
    rfl
  | fuel + 3 => exact Or.inr (parseValue_stringifyPair fuel kv rest h)

theorem joinWith_data (x : String) (xs : List String) :
    (joinWith "," (x :: xs)).data = x.data ++ xs.flatMap (fun y => ',' :: y.data) := by
  induction xs generalizing x with
  | nil => simp [joinWith]
  | cons y xs ih =>
    rw [joinWith_cons_cons, String.data_append, String.data_append, ih, List.flatMap_cons]
    show x.data ++ [','] ++ _ = _
    simp

theorem joinWith_stringifyPair_data (kv : KVPair) (pairs : List KVPair) :
    (joinWith "," ((kv :: pairs).map stringifyPair)).data =
      (stringifyPair kv).data ++ tailText pairs := by
  rw [List.map_cons, joinWith_data, List.flatMap_map]
  rfl

theorem tailText_cons (kv : KVPair) (pairs : List KVPair) :
    tailText (kv :: pairs) = ',' :: ((stringifyPair kv).data ++ tailText pairs) := by
  unfold tailText
  rw [List.flatMap_cons]
  rfl

theorem tailText_append (a b : List KVPair) : tailText (a ++ b) = tailText a ++ tailText b := by
  unfold tailText
  rw [List.flatMap_append]

theorem tailText_length (pairs : List KVPair) : pairs.length ≤ (tailText pairs).length := by
  induction pairs with
  | nil => simp
  | cons kv pairs ih =>
    rw [tailText_cons]
    simp only [List.length_cons, List.length_append]
    omega

/-- With the closing bracket the remaining elements are read back. -/
theorem parseElements_closed (pairs : List KVPair) (fuel : Nat) (rest : List Char)
    (hfuel : pairs.length + 3 ≤ fuel) (h : ∀ kv ∈ pairs, plainPair kv = true) :
    parseElements fuel (tailText pairs ++ ']' :: rest) = some (pairs.map pairJson, rest) := by
  induction pairs generalizing fuel with
  | nil =>
    obtain ⟨f, rfl⟩ : ∃ f, fuel = f + 1 := ⟨fuel - 1, by simp at hfuel; omega⟩
    exact parseElements_close f rest
  | cons kv pairs ih =>
    obtain ⟨f, rfl⟩ : ∃ f, fuel = f + 4 := ⟨fuel - 4, by simp at hfuel; omega⟩
    rw [tailText_cons, List.cons_append, List.append_assoc, parseElements_comma,
      parseValue_stringifyPair f kv _ (h kv (by simp)), Option.some_bind]
    simp only []
    rw [ih (f + 3) (by simp at hfuel; omega) (fun x hx => h x (List.mem_cons_of_mem _ hx))]
    rfl

/-- Without the closing bracket reading fails, whatever the fuel; so it does when the text
ends with a comma. -/
theorem parseElements_open (pairs : List KVPair) (fuel : Nat) (tail : List Char)
    (htail : tail = [] ∨ tail = [','])
    (h : ∀ kv ∈ pairs, plainPair kv = true) :
    parseElements fuel (tailText pairs ++ tail) = none := by
  induction pairs generalizing fuel with
  | nil =>
    rcases htail with rfl | rfl
    · exact parseElements_nil fuel
    · cases fuel with
      | zero => rfl
      | succ fuel =>
        show parseElements (fuel + 1) (',' :: []) = none
        rw [parseElements_comma, parseValue_nil]
        rfl
  | cons kv pairs ih =>
    cases fuel with
    | zero => rfl
    | succ fuel =>
      rw [tailText_cons, List.cons_append, List.append_assoc, parseElements_comma]
      rcases parseValue_stringifyPair_cases fuel kv (tailText pairs ++ tail) (h kv (by simp))
        with hp | hp
      · rw [hp]
        rfl
      · rw [hp, Option.some_bind]
        simp only []
        rw [ih fuel (fun x hx => h x (List.mem_cons_of_mem _ hx))]
        rfl

/-- An array that opens with a pair and is not closed is rejected, whatever the fuel. -/
theorem parseValue_open (kv : KVPair) (pairs : List KVPair) (fuel : Nat) (tail : List Char)
    (htail : tail = [] ∨ tail = [','])
    (h : ∀ x ∈ kv :: pairs, plainPair x = true) :
    parseValue fuel ('[' :: ((stringifyPair kv).data ++ (tailText pairs ++ tail))) = none := by
  cases fuel with
  | zero => rfl
  | succ fuel =>
    have hb := parseValue_bracket fuel '['
      (((quoteJSONString kv.1).data ++ ',' :: ((quoteJSONString kv.2).data ++
        ']' :: (tailText pairs ++ tail)))) (by decide) (by decide)
    rw [← stringifyPair_data_append] at hb
    rw [hb]
    rcases parseValue_stringifyPair_cases fuel kv (tailText pairs ++ tail) (h kv (by simp))
      with hp | hp
    · rw [hp]
      rfl
    · rw [hp, Option.some_bind]
      simp only []
      rw [parseElements_open pairs fuel tail htail
        (fun x hx => h x (List.mem_cons_of_mem _ hx))]
      rfl

/-- The text `JSON.stringify` writes for an array of pairs of plain strings is read back by
`JSON.parse` as that array. -/
theorem JSON_parse_stringify (pairs : List KVPair) (h : ∀ kv ∈ pairs, plainPair kv = true) :
    JSON_parse (JSON_stringify pairs) = some (pairsJson pairs) := by
  cases pairs with
  | nil => rfl
  | cons kv pairs =>
    have hdata : (JSON_stringify (kv :: pairs)).data =
        '[' :: ((stringifyPair kv).data ++ (tailText pairs ++ ']' :: [])) := by
      unfold JSON_stringify
      rw [String.data_append, String.data_append, joinWith_stringifyPair_data]
      show ['['] ++ _ ++ [']'] = _
      simp
    have hlen : pairs.length + 4 ≤ (JSON_stringify (kv :: pairs)).length := by
      show _ ≤ (JSON_stringify (kv :: pairs)).data.length
      rw [hdata, stringifyPair_data]
      have := tailText_length pairs
      simp only [List.length_cons, List.length_append]
      omega
    obtain ⟨f, hf⟩ : ∃ f, (JSON_stringify (kv :: pairs)).length = f + 3 :=
      ⟨(JSON_stringify (kv :: pairs)).length - 3, by omega⟩
    unfold JSON_parse
    rw [hdata, hf]
    have hb := parseValue_bracket (f + 3) '['
      (((quoteJSONString kv.1).data ++ ',' :: ((quoteJSONString kv.2).data ++
        ']' :: (tailText pairs ++ ']' :: [])))) (by decide) (by decide)
    rw [← stringifyPair_data_append] at hb
    rw [hb, parseValue_stringifyPair f kv _ (h kv (by simp)), Option.some_bind]
    simp only []
    rw [parseElements_closed pairs (f + 3) [] (by omega)
      (fun x hx => h x (List.mem_cons_of_mem _ hx))]
    rfl

/-! ## The artifact of a download -/

theorem deliver_fresh_text (bs : List (List KVPair)) (ps : List String) (st : FetchState)
    (hsep : st.separator = false) (hstream : st.stream = ["["]) :
    (deliver bs (issueAll ps st)).stream =
        ["["] ++ List.intersperse "," ((nonEmptyBatches bs).map
          (fun b => slice1 (JSON_stringify b))) ∧
      concatChunks (deliver bs (issueAll ps st)).stream =
        "[" ++ joinWith "," (bs.flatten.map stringifyPair) := by
  have h1 : (deliver bs (issueAll ps st)).stream =
      ["["] ++ List.intersperse "," ((nonEmptyBatches bs).map
        (fun b => slice1 (JSON_stringify b))) := by
    rw [deliver_issueAll_stream, deliver_stream bs st hsep, hstream]
  refine ⟨h1, ?_⟩
  rw [h1, concatChunks_append, concatChunks_intersperse, joinWith_interiors]
  rfl

theorem leafDone_stream (b : List KVPair) (st : FetchState) :
    (leafDone b st).stream =
      if b.length > 0 then
        (if st.separator = true then st.stream ++ [","] else st.stream) ++
          [slice1 (JSON_stringify b)]
      else st.stream := by
  unfold leafDone
  by_cases hb : b.length > 0 <;> by_cases hs : st.separator = true <;> simp [hb, hs]

theorem leafDone_separator (b : List KVPair) (st : FetchState) :
    (leafDone b st).separator = if b.length > 0 then true else st.separator := by
  unfold leafDone
  by_cases hb : b.length > 0 <;> by_cases hs : st.separator = true <;> simp [hb, hs]

/-- What `deliver` writes depends on the stream and on the separator flag only. -/
theorem deliver_congr (bs : List (List KVPair)) (st1 st2 : FetchState)
    (h1 : st1.stream = st2.stream) (h2 : st1.separator = st2.separator) :
    (deliver bs st1).stream = (deliver bs st2).stream ∧
      (deliver bs st1).separator = (deliver bs st2).separator := by
  induction bs generalizing st1 st2 with
  | nil => exact ⟨h1, h2⟩
  | cons b bs ih =>
    show (deliver bs (leafDone b (beginSpan st1))).stream =
        (deliver bs (leafDone b (beginSpan st2))).stream ∧
      (deliver bs (leafDone b (beginSpan st1))).separator =
        (deliver bs (leafDone b (beginSpan st2))).separator
    apply ih
    · rw [leafDone_stream, leafDone_stream, beginSpan_stream, beginSpan_stream,
        beginSpan_separator, beginSpan_separator, h1, h2]
    · rw [leafDone_separator, leafDone_separator, beginSpan_separator, beginSpan_separator, h2]

theorem reachedFrom_refl (st : FetchState) : ReachedFrom st st :=
  ⟨[], by simp, rfl, rfl⟩

theorem reachedFrom_of_eq (st st' : FetchState) (h1 : st'.stream = st.stream)
    (h2 : st'.separator = st.separator) : ReachedFrom st st' :=
  ⟨[], by simp, h1, h2⟩

theorem reachedFrom_trans (a b c : FetchState) (h1 : ReachedFrom a b) (h2 : ReachedFrom b c) :
    ReachedFrom a c := by
  obtain ⟨bs1, hp1, hs1, hq1⟩ := h1
  obtain ⟨bs2, hp2, hs2, hq2⟩ := h2
  have hc := deliver_congr bs2 b (deliver bs1 a) hs1 hq1
  refine ⟨bs1 ++ bs2, ?_, ?_, ?_⟩
  · intro x hx
    rcases List.mem_append.mp hx with h | h
    · exact hp1 x h
    · exact hp2 x h
  · rw [deliver_append, hs2, hc.1]
  · rw [deliver_append, hq2, hc.2]

theorem foldlM_reachedFrom {α : Type} (f : FetchState → α → Except FetchState FetchState)
    (hf : ∀ s a, ReachedFrom s (outcomeState (f s a))) (l : List α) (st : FetchState) :
    ReachedFrom st (outcomeState (l.foldlM f st)) := by
  induction l generalizing st with
  | nil => exact reachedFrom_refl st
  | cons a l ih =>
    rw [List.foldlM_cons]
    have h := hf st a
    cases hfa : f st a with
    | error e =>
      rw [hfa] at h
      exact h
    | ok s =>
      rw [hfa] at h
      exact reachedFrom_trans st s _ h (ih s)

theorem leafResume_reachedFrom (getPairs : String → String → Option (List KVPair))
    (hplain : ∀ p a pairs, getPairs p a = some pairs → ∀ kv ∈ pairs, plainPair kv = true)
    (pfx atHash : String) (st : FetchState) :
    ReachedFrom st (outcomeState (leafResume getPairs pfx atHash st)) := by
  unfold leafResume
  cases hg : getPairs pfx atHash with
  | none => exact reachedFrom_of_eq st _ rfl rfl
  | some pairs =>
    refine ⟨[pairs], ?_, rfl, rfl⟩
    intro b hb kv hkv
    rw [List.mem_singleton] at hb
    subst hb
    exact hplain pfx atHash b hg kv hkv

/-- Whether `fetchChunks` returns or throws, what it has written are whole batches. -/
theorem fetchChunks_reachedFrom (getPairs : String → String → Option (List KVPair))
    (hplain : ∀ p a pairs, getPairs p a = some pairs → ∀ kv ∈ pairs, plainPair kv = true)
    (QUICK_MODE : Bool) (completion : String → Equiv.Perm (Fin 256)) (atHash : String)
    (d : Nat) (pfx : String) (st : FetchState) :
    ReachedFrom st
      (outcomeState (fetchChunks getPairs QUICK_MODE completion atHash d pfx st)) := by
  induction d generalizing pfx st with
  | zero =>
    unfold fetchChunks
    exact reachedFrom_trans st (issueQuery pfx st) _ (reachedFrom_of_eq st _ rfl rfl)
      (leafResume_reachedFrom getPairs hplain pfx atHash _)
  | succ d ih =>
    unfold fetchChunks
    by_cases hq : (QUICK_MODE && (d + 1 == 1)) = true
    · rw [if_pos hq]
      simp only []
      rw [foldl_issueQuery]
      refine reachedFrom_trans st
        (issueAll ((List.range 256).map (fun i => pfx ++ childSuffix i)) st) _
        (reachedFrom_of_eq st _ rfl rfl) ?_
      exact foldlM_reachedFrom _
        (fun s i => leafResume_reachedFrom getPairs hplain _ atHash s) _ _
    · rw [if_neg hq]
      exact foldlM_reachedFrom _ (fun s i => ih _ s) _ _

/-! ## A text cut short -/

theorem comma_interior_data (b : List KVPair) (hb : b.length > 0) :
    ',' :: (slice1 (JSON_stringify b)).data = tailText b := by
  cases b with
  | nil => exact absurd hb (by simp)
  | cons kv ps => rw [slice1_JSON_stringify, joinWith_stringifyPair_data, tailText_cons]

theorem concatChunks_cons_data (c : String) (cs : List String) :
    (concatChunks (c :: cs)).data = c.data ++ (concatChunks cs).data := by
  show (c ++ concatChunks cs).data = _
  rw [String.data_append]

/-- A run of initial chunks of what follows the first batch is the text of whole pairs, with
a comma at the end when the run stops after a separator. -/
theorem take_tail_data (xs : List (List KVPair)) (hne : ∀ b ∈ xs, b.length > 0)
    (hp : ∀ b ∈ xs, ∀ kv ∈ b, plainPair kv = true) (k : Nat) :
    ∃ (qs : List KVPair) (tail : List Char), (tail = [] ∨ tail = [',']) ∧
      (∀ kv ∈ qs, plainPair kv = true) ∧
      (concatChunks (List.take k ((xs.map (fun b => slice1 (JSON_stringify b))).flatMap
        (fun y => [",", y])))).data = tailText qs ++ tail := by
  induction xs generalizing k with
  | nil => exact ⟨[], [], Or.inl rfl, by simp, by simp [concatChunks, tailText]⟩
  | cons b xs ih =>
    rw [List.map_cons, List.flatMap_cons]
    have hcons : ∀ T : List String, [",", slice1 (JSON_stringify b)] ++ T =
        "," :: slice1 (JSON_stringify b) :: T := fun _ => rfl
    rw [hcons]
    match k with
    | 0 => exact ⟨[], [], Or.inl rfl, by simp, by simp [concatChunks, tailText]⟩
    | 1 => exact ⟨[], [','], Or.inr rfl, by simp, rfl⟩
    | k + 2 =>
      obtain ⟨qs, tail, htail, hqs, hdata⟩ := ih (fun x hx => hne x (List.mem_cons_of_mem _ hx))
        (fun x hx => hp x (List.mem_cons_of_mem _ hx)) k
      refine ⟨b ++ qs, tail, htail, ?_, ?_⟩
      · intro kv hkv
        rcases List.mem_append.mp hkv with h | h
        · exact hp b (by simp) kv h
        · exact hqs kv h
      · rw [List.take_succ_cons, List.take_succ_cons,
          concatChunks_cons_data, concatChunks_cons_data, hdata, tailText_append,
          ← comma_interior_data b (hne b (by simp))]
        show [','] ++ _ = _
        simp

theorem JSON_parse_of_data (text : String) (h : ∀ fuel, parseValue fuel text.data = none) :
    JSON_parse text = none := by
  unfold JSON_parse
  rw [h]
  rfl

/-- The text of any run of initial chunks of "[", batch, ",", batch, ... is rejected by
`JSON.parse`: an array that is not closed, or no text at all. -/
theorem JSON_parse_take (xs : List (List KVPair)) (hne : ∀ b ∈ xs, b.length > 0)
    (hp : ∀ b ∈ xs, ∀ kv ∈ b, plainPair kv = true) (n : Nat) :
    JSON_parse (concatChunks (List.take n (["["] ++
      List.intersperse "," (xs.map (fun b => slice1 (JSON_stringify b)))))) = none := by
  match n with
  | 0 => rfl
  | n + 1 =>
    show JSON_parse (concatChunks ("[" :: List.take n
      (List.intersperse "," (xs.map (fun b => slice1 (JSON_stringify b)))))) = none
    cases xs with
    | nil =>
      rw [List.map_nil]
      show JSON_parse (concatChunks ("[" :: List.take n [])) = none
      rw [List.take_nil]
      rfl
    | cons b xs =>
      rw [List.map_cons, intersperse_cons]
      match n with
      | 0 => rfl
      | n + 1 =>
        rw [List.take_succ_cons]
        have hb : b.length > 0 := hne b (by simp)
        obtain ⟨qs, tail, htail, hqs, hdata⟩ := take_tail_data xs
          (fun x hx => hne x (List.mem_cons_of_mem _ hx))
          (fun x hx => hp x (List.mem_cons_of_mem _ hx)) n
        cases b with
        | nil => exact absurd hb (by simp)
        | cons kv ps =>
          apply JSON_parse_of_data
          intro fuel
          rw [concatChunks_cons_data, concatChunks_cons_data, hdata, slice1_JSON_stringify,
            joinWith_stringifyPair_data]
          have hshape : "[".data ++ ((stringifyPair kv).data ++ tailText ps ++
              (tailText qs ++ tail)) =
              '[' :: ((stringifyPair kv).data ++ (tailText (ps ++ qs) ++ tail)) := by
            rw [tailText_append]
            show ['['] ++ _ = _
            simp
          rw [hshape]
          apply parseValue_open kv (ps ++ qs) fuel tail htail
          intro x hx
          rcases List.mem_cons.mp hx with h | h
          · rw [h]
            exact hp (kv :: ps) (by simp) kv (by simp)
          · rcases List.mem_append.mp h with h2 | h2
            · exact hp (kv :: ps) (by simp) x (List.mem_cons_of_mem _ h2)
            · exact hqs x h2

theorem nonEmptyBatches_spec (bs : List (List KVPair))
    (hp : ∀ b ∈ bs, ∀ kv ∈ b, plainPair kv = true) :
    (∀ b ∈ nonEmptyBatches bs, b.length > 0) ∧
      (∀ b ∈ nonEmptyBatches bs, ∀ kv ∈ b, plainPair kv = true) := by
  constructor
  · intro b hb
    have := (List.mem_filter.mp hb).2
    simpa using this
  · intro b hb
    exact hp b (List.mem_filter.mp hb).1

/-- A download that fails at a leaf leaves initial chunks of "[", batch, ",", batch, ...,
which `JSON.parse` rejects. -/
theorem downloadOriginState_rangeQuery (env : Env) (chain : Chain)
    (hplain : ∀ p a pairs, chain.getPairs p a = some pairs → ∀ kv ∈ pairs, plainPair kv = true)
    (hfail : (downloadOriginState env chain none initialFetchState).failure =
      some Failure.rangeQuery) :
    ∃ text, (downloadOriginState env chain none initialFetchState).statePairs = some text ∧
      JSON_parse text = none := by
  unfold downloadOriginState at hfail ⊢
  simp only [] at hfail ⊢
  cases hh : chain.getBlockHash env.FROM_BLOCK_NUM with
  | none =>
    rw [hh] at hfail
    exact absurd hfail (by simp)
  | some atHash =>
    rw [hh] at hfail
    simp only [] at hfail ⊢
    have hreach := fetchChunks_reachedFrom chain.getPairs hplain env.QUICK_MODE chain.completion
      atHash (env.FORK_CHUNKS_LEVEL.getD 1) "0x" { initialFetchState with stream := ["["] }
    cases hf : fetchChunks chain.getPairs env.QUICK_MODE chain.completion atHash
        (env.FORK_CHUNKS_LEVEL.getD 1) "0x" { initialFetchState with stream := ["["] } with
    | ok st2 =>
      rw [hf] at hfail
      exact absurd hfail (by simp)
    | error st2 =>
      rw [hf] at hreach
      obtain ⟨bs, hbs, hstream, _⟩ := hreach
      have hst : st2.stream = ["["] ++ List.intersperse ","
          ((nonEmptyBatches bs).map (fun b => slice1 (JSON_stringify b))) := by
        have h1 : st2.stream =
            (deliver bs { initialFetchState with stream := ["["] }).stream := hstream
        rw [h1, deliver_stream bs _ rfl]
      obtain ⟨hne, hpl⟩ := nonEmptyBatches_spec bs hbs
      refine ⟨_, rfl, ?_⟩
      show JSON_parse ("" ++ concatChunks (List.take _ st2.stream)) = none
      rw [String.empty_append, hst]
      exact JSON_parse_take (nonEmptyBatches bs) hne hpl _

theorem downloadOriginState_answering (env : Env) (blockHash : Option Nat → String)
    (responses : String → String → List KVPair) (completion : String → Equiv.Perm (Fin 256))
    (flushed : Nat) :
    downloadOriginState env (answering blockHash responses completion flushed) none
        initialFetchState =
      { statePairs := some ("" ++ concatChunks (List.take
          (min flushed ((fetchedState env blockHash responses completion).spanStart + 1))
          ((fetchedState env blockHash responses completion).stream ++ ["]"]))),
        state := { fetchedState env blockHash responses completion with
          stream := (fetchedState env blockHash responses completion).stream ++ ["]"] },
        failure := none } := by
  unfold downloadOriginState answering fetchedState deliveredBatches
  simp only []
  rw [fetchChunks_ok]
  rfl

theorem leafDone_spanStart (b : List KVPair) (st : FetchState) :
    (leafDone b st).spanStart = st.spanStart := by
  unfold leafDone
  by_cases hb : b.length > 0 <;> by_cases hs : st.separator = true <;> simp [hb, hs]

/-- After a non-empty batch the stream holds at least one chunk handed over since the script
was resumed. -/
theorem deliver_last_span (bs : List (List KVPair)) (b : List KVPair) (st : FetchState)
    (hb : b.length > 0) :
    (deliver (bs ++ [b]) st).spanStart + 1 ≤ (deliver (bs ++ [b]) st).stream.length := by
  rw [deliver_append]
  show (leafDone b (beginSpan (deliver bs st))).spanStart + 1 ≤
    (leafDone b (beginSpan (deliver bs st))).stream.length
  rw [leafDone_spanStart, leafDone_stream, if_pos hb, beginSpan_stream, beginSpan_separator]
  show (deliver bs st).stream.length + 1 ≤ _
  split_ifs <;> simp

/-- When every request is answered and the last response handled is a non-empty batch, the
closing bracket is still in the buffer of the stream when the function is left: the file
holds an array that is not closed, and reading it at once fails. -/
theorem downloadOriginState_unflushed (env : Env) (blockHash : Option Nat → String)
    (responses : String → String → List KVPair) (completion : String → Equiv.Perm (Fin 256))
    (flushed : Nat) (bs : List (List KVPair)) (b : List KVPair)
    (hlast : deliveredBatches env blockHash responses completion = bs ++ [b])
    (hb : b.length > 0)
    (hplain : ∀ x ∈ deliveredBatches env blockHash responses completion, ∀ kv ∈ x,
      plainPair kv = true) :
    readStatePairs (downloadOriginState env (answering blockHash responses completion flushed)
      none initialFetchState).statePairs = Except.error Failure.parse := by
  rw [downloadOriginState_answering]
  simp only []
  have hspan : (fetchedState env blockHash responses completion).spanStart + 1 ≤
      (fetchedState env blockHash responses completion).stream.length := by
    unfold fetchedState
    rw [hlast]
    exact deliver_last_span bs b _ hb
  have htake : List.take
      (min flushed ((fetchedState env blockHash responses completion).spanStart + 1))
      ((fetchedState env blockHash responses completion).stream ++ ["]"]) =
      List.take (min flushed ((fetchedState env blockHash responses completion).spanStart + 1))
        (fetchedState env blockHash responses completion).stream := by
    apply List.take_append_of_le_length
    exact le_trans (min_le_right _ _) hspan
  have hstream := (deliver_fresh_text (deliveredBatches env blockHash responses completion)
    (leafPrefixes (env.FORK_CHUNKS_LEVEL.getD 1) "0x")
    { initialFetchState with stream := ["["] } rfl rfl).1
  obtain ⟨hne, hpl⟩ := nonEmptyBatches_spec _ hplain
  unfold readStatePairs
  simp only []
  rw [String.empty_append, htake]
  have hparse := JSON_parse_take (nonEmptyBatches
    (deliveredBatches env blockHash responses completion)) hne hpl
    (min flushed ((fetchedState env blockHash responses completion).spanStart + 1))
  rw [← hstream] at hparse
  have hS : (fetchedState env blockHash responses completion).stream =
      (deliver (deliveredBatches env blockHash responses completion)
        (issueAll (leafPrefixes (env.FORK_CHUNKS_LEVEL.getD 1) "0x")
          { initialFetchState with stream := ["["] })).stream := rfl
  rw [hS, hparse]

/-! ## The queries of a download -/

theorem leafResume_queries (getPairs : String → String → Option (List KVPair))
    (pfx atHash : String) (st : FetchState) :
    (outcomeState (leafResume getPairs pfx atHash st)).queries = st.queries := by
  unfold leafResume
  cases getPairs pfx atHash with
  | none => rfl
  | some pairs =>
    show (leafDone pairs (beginSpan st)).queries = st.queries
    rw [leafDone_queries, beginSpan_queries]

theorem foldlM_queries_length {α : Type} (f : FetchState → α → Except FetchState FetchState)
    (hf : ∀ s a, s.queries.length ≤ (outcomeState (f s a)).queries.length) (l : List α)
    (st : FetchState) : st.queries.length ≤ (outcomeState (l.foldlM f st)).queries.length := by
  induction l generalizing st with
  | nil => exact le_refl _
  | cons a l ih =>
    rw [List.foldlM_cons]
    have h := hf st a
    cases hfa : f st a with
    | error e =>
      rw [hfa] at h
      exact h
    | ok s =>
      rw [hfa] at h
      exact le_trans h (ih s)

/-- Whether it returns or throws, `fetchChunks` has sent at least one query. -/
theorem fetchChunks_sends (getPairs : String → String → Option (List KVPair))
    (QUICK_MODE : Bool) (completion : String → Equiv.Perm (Fin 256)) (atHash : String)
    (d : Nat) (pfx : String) (st : FetchState) :
    st.queries.length <
      (outcomeState (fetchChunks getPairs QUICK_MODE completion atHash d pfx
        st)).queries.length := by
  induction d generalizing pfx st with
  | zero =>
    unfold fetchChunks
    rw [leafResume_queries]
    simp [issueQuery]
  | succ d ih =>
    unfold fetchChunks
    by_cases hq : (QUICK_MODE && (d + 1 == 1)) = true
    · rw [if_pos hq]
      simp only []
      rw [foldl_issueQuery]
      refine lt_of_lt_of_le ?_ (foldlM_queries_length _
        (fun s i => le_of_eq (congrArg List.length
          (leafResume_queries getPairs (pfx ++ childSuffix i) atHash s)).symm) _ _)
      simp [issueAll]
    · rw [if_neg hq]
      have hr : List.range 256 = 0 :: (List.range 255).map Nat.succ := List.range_succ_eq_map 255
      rw [hr, List.foldlM_cons]
      have h0 := ih (pfx ++ childSuffix 0) st
      cases hf : fetchChunks getPairs QUICK_MODE completion atHash d (pfx ++ childSuffix 0)
          st with
      | error e =>
        rw [hf] at h0
        exact h0
      | ok s =>
        rw [hf] at h0
        exact lt_of_lt_of_le h0 (foldlM_queries_length _
          (fun s i => le_of_lt (ih (pfx ++ childSuffix i) s)) _ _)

theorem downloadOriginState_sends (env : Env) (chain : Chain) (atHash : String)
    (hh : chain.getBlockHash env.FROM_BLOCK_NUM = some atHash) (statePairs : Option String) :
    (downloadOriginState env chain statePairs initialFetchState).state.queries ≠ [] := by
  have hs := fetchChunks_sends chain.getPairs env.QUICK_MODE chain.completion atHash
    (env.FORK_CHUNKS_LEVEL.getD 1) "0x" { initialFetchState with stream := ["["] }
  unfold downloadOriginState
  simp only [hh]
  cases hf : fetchChunks chain.getPairs env.QUICK_MODE chain.completion atHash
      (env.FORK_CHUNKS_LEVEL.getD 1) "0x" { initialFetchState with stream := ["["] } with
  | error e =>
    rw [hf] at hs
    intro hnil
    simp only [] at hnil
    rw [show (outcomeState (Except.error e)).queries = e.queries from rfl, hnil] at hs
    exact absurd hs (by simp)
  | ok s =>
    rw [hf] at hs
    intro hnil
    simp only [] at hnil
    rw [show (outcomeState (Except.ok s)).queries = s.queries from rfl, hnil] at hs
    exact absurd hs (by simp)

/-! ## Properties of the artifact and of the choice of the source -/

/-- C2: a download from a node that answers every request succeeds, and for the leaf batches
in the order their responses are handled, of which `N` are non-empty: what is handed to the
stream is "[", the bracket-stripped JSON of each non-empty batch with one "," between two of
them (`N - 1` in all), and "]"; the text so written is `JSON.stringify` of the concatenation
of all batches, and `JSON.parse` reads it back as that concatenation (the pairs being hex
strings, plain in particular); an empty batch writes nothing. The same holds for the
collector on any sequence of batches. The file itself holds, when the function is left, a
run of initial chunks of that text. -/
theorem downloadOriginState_artifact (env : Env) (blockHash : Option Nat → String)
    (responses : String → String → List KVPair) (completion : String → Equiv.Perm (Fin 256))
    (flushed : Nat) :
    (downloadOriginState env (answering blockHash responses completion flushed) none
        initialFetchState).failure = none ∧
      (downloadOriginState env (answering blockHash responses completion flushed) none
        initialFetchState).state.stream =
        ["["] ++ List.intersperse "," ((nonEmptyBatches
          (deliveredBatches env blockHash responses completion)).map
            (fun b => slice1 (JSON_stringify b))) ++ ["]"] ∧
      (downloadOriginState env (answering blockHash responses completion flushed) none
        initialFetchState).state.stream.count "," =
        (nonEmptyBatches (deliveredBatches env blockHash responses completion)).length - 1 ∧
      concatChunks (downloadOriginState env (answering blockHash responses completion flushed)
        none initialFetchState).state.stream =
        "[" ++ joinWith "," ((nonEmptyBatches
          (deliveredBatches env blockHash responses completion)).map
            (fun b => slice1 (JSON_stringify b))) ++ "]" ∧
      concatChunks (downloadOriginState env (answering blockHash responses completion flushed)
        none initialFetchState).state.stream =
        JSON_stringify (deliveredBatches env blockHash responses completion).flatten ∧
      ((∀ b ∈ deliveredBatches env blockHash responses completion, ∀ kv ∈ b,
          plainPair kv = true) →
        JSON_parse (concatChunks (downloadOriginState env
          (answering blockHash responses completion flushed) none
          initialFetchState).state.stream) =
          some (pairsJson (deliveredBatches env blockHash responses completion).flatten)) ∧
      (∃ n, (downloadOriginState env (answering blockHash responses completion flushed) none
        initialFetchState).statePairs =
          some (concatChunks (List.take n (downloadOriginState env
            (answering blockHash responses completion flushed) none
            initialFetchState).state.stream))) ∧
      (∀ st : FetchState, (leafDone [] st).stream = st.stream) ∧
      (∀ (batches : List (List KVPair)) (st : FetchState), st.separator = false →
        (deliver batches st).stream = st.stream ++
          List.intersperse "," ((nonEmptyBatches batches).map
            (fun b => slice1 (JSON_stringify b)))) := by
  have hrun := downloadOriginState_answering env blockHash responses completion flushed
  obtain ⟨hchunks, htext⟩ := deliver_fresh_text
    (deliveredBatches env blockHash responses completion)
    (leafPrefixes (env.FORK_CHUNKS_LEVEL.getD 1) "0x")
    { initialFetchState with stream := ["["] } rfl rfl
  have hstream : (downloadOriginState env (answering blockHash responses completion flushed)
      none initialFetchState).state.stream =
      ["["] ++ List.intersperse "," ((nonEmptyBatches
        (deliveredBatches env blockHash responses completion)).map
          (fun b => slice1 (JSON_stringify b))) ++ ["]"] := by
    rw [hrun]
    show (fetchedState env blockHash responses completion).stream ++ ["]"] = _
    unfold fetchedState
    rw [hchunks]
  have hwritten : concatChunks (downloadOriginState env
      (answering blockHash responses completion flushed) none
      initialFetchState).state.stream =
      JSON_stringify (deliveredBatches env blockHash responses completion).flatten := by
    rw [hrun]
    show concatChunks ((fetchedState env blockHash responses completion).stream ++ ["]"]) = _
    unfold fetchedState
    rw [concatChunks_append, htext]
    rfl
  refine ⟨by rw [hrun], hstream, ?_, ?_, hwritten, ?_, ?_, fun st => rfl,
    fun batches st hs => deliver_stream batches st hs⟩
  · rw [hstream, List.count_append, List.count_append, count_comma_intersperse]
    · rw [List.length_map]
      have h1 : List.count "," ["["] = 0 := by decide
      have h2 : List.count "," ["]"] = 0 := by decide
      rw [h1, h2]
      omega
    · intro x hx
      obtain ⟨b, hb, rfl⟩ := List.mem_map.mp hx
      apply interior_ne_comma
      have := (List.mem_filter.mp hb).2
      simpa using this
  · rw [hwritten, joinWith_interiors]
    rfl
  · intro hplain
    rw [hwritten]
    apply JSON_parse_stringify
    intro kv hkv
    obtain ⟨b, hb, hkvb⟩ := List.mem_flatten.mp hkv
    exact hplain b hb kv hkvb
  · rw [hrun]
    exact ⟨_, congrArg some (String.empty_append _)⟩

/-- C2, on a quick-mode download at depth 1 in which the response of leaf "0x05" arrives
before that of leaf "0x01". -/
theorem downloadOriginState_artifact_witness :
    (∀ b ∈ deliveredBatches quickEnv (fun _ => "0xb10c") sampleResponses
        (fun _ => Equiv.swap 1 5), ∀ kv ∈ b, plainPair kv = true) ∧
      JSON_parse (concatChunks (downloadOriginState quickEnv
        (answering (fun _ => "0xb10c") sampleResponses (fun _ => Equiv.swap 1 5) 3) none
        initialFetchState).state.stream) =
        some (pairsJson (deliveredBatches quickEnv (fun _ => "0xb10c") sampleResponses
          (fun _ => Equiv.swap 1 5)).flatten) := by
  have hplain : ∀ b ∈ deliveredBatches quickEnv (fun _ => "0xb10c") sampleResponses
      (fun _ => Equiv.swap 1 5), ∀ kv ∈ b, plainPair kv = true := by
    intro b hb kv hkv
    obtain ⟨p, _, rfl⟩ := List.mem_map.mp hb
    unfold sampleResponses at hkv
    by_cases h1 : p = "0x01"
    · rw [if_pos h1, List.mem_singleton] at hkv
      rw [hkv]
      decide
    · rw [if_neg h1] at hkv
      by_cases h5 : p = "0x05"
      · rw [if_pos h5, List.mem_singleton] at hkv
        rw [hkv]
        decide
      · rw [if_neg h5] at hkv
        exact absurd hkv (List.not_mem_nil kv)
  exact ⟨hplain, (downloadOriginState_artifact quickEnv (fun _ => "0xb10c") sampleResponses
    (fun _ => Equiv.swap 1 5) 3).2.2.2.2.2.1 hplain⟩

/-- C8: `ensureOriginStateKvPairs` chooses its source by a fixed precedence. With an
exported-state document it only reads that document and returns the entries of its
`genesis.raw.top`; otherwise, with a pair-sequence cache, it only reads the cache and returns
what `JSON.parse` makes of it; in both cases no query is sent, nothing is written and neither
the node nor the environment matters. When neither file exists, and only then, the download
is invoked, once: the module state and the file are those `downloadOriginState` leaves, at
least one range query has been sent once the block hash is known, and the result is the
failure of the download or what line 152 reads from the file just written. -/
theorem ensureOriginStateKvPairs_precedence (parseExportedTop : String → Option Top)
    (env : Env) (chain : Chain) (files : Files) :
    (∀ text, files.exportedState = some text →
      (ensureOriginStateKvPairs parseExportedTop env chain files).actions =
          [Action.readExportedState] ∧
        (ensureOriginStateKvPairs parseExportedTop env chain files).files = files ∧
        (ensureOriginStateKvPairs parseExportedTop env chain files).state =
          initialFetchState ∧
        (∀ top, parseExportedTop text = some top →
          (ensureOriginStateKvPairs parseExportedTop env chain files).result =
            Except.ok (pairsJson top)) ∧
        (parseExportedTop text = none →
          (ensureOriginStateKvPairs parseExportedTop env chain files).result =
            Except.error Failure.parse)) ∧
    (files.exportedState = none → ∀ text, files.statePairs = some text →
      (ensureOriginStateKvPairs parseExportedTop env chain files).actions =
          [Action.reuseCache, Action.readStatePairs] ∧
        (ensureOriginStateKvPairs parseExportedTop env chain files).files = files ∧
        (ensureOriginStateKvPairs parseExportedTop env chain files).state =
          initialFetchState ∧
        (∀ value, JSON_parse text = some value →
          (ensureOriginStateKvPairs parseExportedTop env chain files).result =
            Except.ok value) ∧
        (JSON_parse text = none →
          (ensureOriginStateKvPairs parseExportedTop env chain files).result =
            Except.error Failure.parse)) ∧
    (files.exportedState = none → files.statePairs = none →
      (ensureOriginStateKvPairs parseExportedTop env chain files).state =
          (downloadOriginState env chain none initialFetchState).state ∧
        (ensureOriginStateKvPairs parseExportedTop env chain files).files =
          { exportedState := none,
            statePairs := (downloadOriginState env chain none initialFetchState).statePairs } ∧
        (∀ f, (downloadOriginState env chain none initialFetchState).failure = some f →
          (ensureOriginStateKvPairs parseExportedTop env chain files).actions =
              [Action.download] ∧
            (ensureOriginStateKvPairs parseExportedTop env chain files).result =
              Except.error f) ∧
        ((downloadOriginState env chain none initialFetchState).failure = none →
          (ensureOriginStateKvPairs parseExportedTop env chain files).actions =
              [Action.download, Action.readStatePairs] ∧
            (ensureOriginStateKvPairs parseExportedTop env chain files).result =
              readStatePairs
                (downloadOriginState env chain none initialFetchState).statePairs) ∧
        (∀ atHash, chain.getBlockHash env.FROM_BLOCK_NUM = some atHash →
          (ensureOriginStateKvPairs parseExportedTop env chain files).state.queries ≠ [])) ∧
    (Action.download ∈ (ensureOriginStateKvPairs parseExportedTop env chain files).actions ↔
      files.exportedState = none ∧ files.statePairs = none) ∧
    (ensureOriginStateKvPairs parseExportedTop env chain files).actions.count
      Action.download ≤ 1 ∧
    ((files.exportedState ≠ none ∨ files.statePairs ≠ none) → ∀ (env' : Env) (chain' : Chain),
      ensureOriginStateKvPairs parseExportedTop env' chain' files =
        ensureOriginStateKvPairs parseExportedTop env chain files) := by
  obtain ⟨exported, cache⟩ := files
  cases exported with
  | some text0 =>
    refine ⟨?_, ?_, ?_, ?_, ?_, ?_⟩
    · intro text ht
      simp only [Option.some.injEq] at ht
      subst ht
      refine ⟨rfl, rfl, rfl, ?_, ?_⟩
      · intro top htop
        simp only [ensureOriginStateKvPairs, htop]
      · intro hnone
        simp only [ensureOriginStateKvPairs, hnone]
    · intro h
      exact absurd h (by simp)
    · intro h
      exact absurd h (by simp)
    · simp [ensureOriginStateKvPairs]
    · simp [ensureOriginStateKvPairs]
    · intro _ env' chain'
      rfl
  | none =>
    cases cache with
    | some text0 =>
      refine ⟨?_, ?_, ?_, ?_, ?_, ?_⟩
      · intro text ht
        exact absurd ht (by simp)
      · intro _ text ht
        simp only [Option.some.injEq] at ht
        subst ht
        refine ⟨rfl, rfl, rfl, ?_, ?_⟩
        · intro value hv
          simp only [ensureOriginStateKvPairs, readStatePairs, hv]
        · intro hnone
          simp only [ensureOriginStateKvPairs, readStatePairs, hnone]
      · intro _ h
        exact absurd h (by simp)
      · simp [ensureOriginStateKvPairs]
      · simp [ensureOriginStateKvPairs]
      · intro _ env' chain'
        rfl
    | none =>
      refine ⟨?_, ?_, ?_, ?_, ?_, ?_⟩
      · intro text ht
        exact absurd ht (by simp)
      · intro _ text ht
        exact absurd ht (by simp)
      · intro _ _
        refine ⟨?_, ?_, ?_, ?_, ?_⟩
        · simp only [ensureOriginStateKvPairs]
          cases (downloadOriginState env chain none initialFetchState).failure <;> rfl
        · simp only [ensureOriginStateKvPairs]
          cases (downloadOriginState env chain none initialFetchState).failure <;> rfl
        · intro f hf
          simp only [ensureOriginStateKvPairs, hf]
          exact ⟨trivial, trivial⟩
        · intro hf
          simp only [ensureOriginStateKvPairs, hf]
          exact ⟨trivial, trivial⟩
        · intro atHash hh
          have hs := downloadOriginState_sends env chain atHash hh none
          simp only [ensureOriginStateKvPairs]
          cases hf : (downloadOriginState env chain none initialFetchState).failure <;>
            exact hs
      · simp only [ensureOriginStateKvPairs, and_self, iff_true]
        cases (downloadOriginState env chain none initialFetchState).failure <;> simp
      · simp only [ensureOriginStateKvPairs]
        cases (downloadOriginState env chain none initialFetchState).failure <;> simp
      · intro h
        rcases h with h | h <;> exact absurd rfl h

/-- C8, on the example of the specification: with the cache `[["0x00","x"]]` and no exported
state, the pairs of the cache are returned and no query is sent. -/
theorem ensureOriginStateKvPairs_precedence_witness :
    JSON_parse (JSON_stringify [("0x00", "x")]) = some (pairsJson [("0x00", "x")]) ∧
    (ensureOriginStateKvPairs (fun _ => none) sampleEnv failingChain
      { exportedState := none, statePairs := some (JSON_stringify [("0x00", "x")]) }).result =
      Except.ok (pairsJson [("0x00", "x")]) :=
  ⟨rfl, ((ensureOriginStateKvPairs_precedence (fun _ => none) sampleEnv failingChain
    { exportedState := none, statePairs := some (JSON_stringify [("0x00", "x")]) }).2.1 rfl
    (JSON_stringify [("0x00", "x")]) rfl).2.2.2.1 (pairsJson [("0x00", "x")]) rfl⟩

/-- C7 as stated fails: the node answers the first leaf and fails at the second, the text
`[["0x00ab","0x01"]` stays in `state_pairs.json`, and the next run takes the cache-reuse
branch on it. -/
theorem partial_artifact_reused :
    (ensureOriginStateKvPairs (fun _ => none) sampleEnv failingChain
      { exportedState := none, statePairs := none }).result =
        Except.error Failure.rangeQuery ∧
    (ensureOriginStateKvPairs (fun _ => none) sampleEnv failingChain
      { exportedState := none, statePairs := none }).files.statePairs =
        some ("[" ++ slice1 (JSON_stringify [("0x00ab", "0x01")])) ∧
    Action.reuseCache ∈ (ensureOriginStateKvPairs (fun _ => none) sampleEnv failingChain
      (ensureOriginStateKvPairs (fun _ => none) sampleEnv failingChain
        { exportedState := none, statePairs := none }).files).actions := by
  refine ⟨rfl, ?_, ?_⟩
  · decide
  · decide

theorem readStatePairs_rejected (text : String) (h : JSON_parse text = none) :
    readStatePairs (some text) = Except.error Failure.parse := by
  unfold readStatePairs
  simp only []
  rw [h]

/-- C7, amended: when the download of a first run (neither file exists) fails at a leaf
query, the text left in `state_pairs.json` is an array without its end, which `JSON.parse`
rejects; a later run, whatever its environment and node, leaves the file as it is and does
not download; if no exported state has been added it takes the cache-reuse branch on the
file and fails on parsing it, so it returns no pairs read from it. -/
theorem partial_artifact_unreadable (parseExportedTop parseExportedTop' : String → Option Top)
    (env env' : Env) (chain chain' : Chain) (exported : Option String)
    (hplain : ∀ p a pairs, chain.getPairs p a = some pairs → ∀ kv ∈ pairs, plainPair kv = true)
    (hfail : (ensureOriginStateKvPairs parseExportedTop env chain
      { exportedState := none, statePairs := none }).result = Except.error Failure.rangeQuery) :
    (∃ text, (ensureOriginStateKvPairs parseExportedTop env chain
        { exportedState := none, statePairs := none }).files.statePairs = some text ∧
      JSON_parse text = none) ∧
    (ensureOriginStateKvPairs parseExportedTop' env' chain'
      { exportedState := exported,
        statePairs := (ensureOriginStateKvPairs parseExportedTop env chain
          { exportedState := none, statePairs := none }).files.statePairs }).files =
      { exportedState := exported,
        statePairs := (ensureOriginStateKvPairs parseExportedTop env chain
          { exportedState := none, statePairs := none }).files.statePairs } ∧
    Action.download ∉ (ensureOriginStateKvPairs parseExportedTop' env' chain'
      { exportedState := exported,
        statePairs := (ensureOriginStateKvPairs parseExportedTop env chain
          { exportedState := none, statePairs := none }).files.statePairs }).actions ∧
    (exported = none →
      (ensureOriginStateKvPairs parseExportedTop' env' chain'
        { exportedState := exported,
          statePairs := (ensureOriginStateKvPairs parseExportedTop env chain
            { exportedState := none, statePairs := none }).files.statePairs }).actions =
        [Action.reuseCache, Action.readStatePairs] ∧
      (ensureOriginStateKvPairs parseExportedTop' env' chain'
        { exportedState := exported,
          statePairs := (ensureOriginStateKvPairs parseExportedTop env chain
            { exportedState := none, statePairs := none }).files.statePairs }).result =
        Except.error Failure.parse) := by
  -- the first run downloaded, and the download failed at a leaf
  have hfirst : (downloadOriginState env chain none initialFetchState).failure =
        some Failure.rangeQuery ∧
      (ensureOriginStateKvPairs parseExportedTop env chain
        { exportedState := none, statePairs := none }).files.statePairs =
        (downloadOriginState env chain none initialFetchState).statePairs := by
    simp only [ensureOriginStateKvPairs] at hfail ⊢
    cases hd : (downloadOriginState env chain none initialFetchState).failure with
    | none =>
      rw [hd] at hfail
      simp only [] at hfail
      exfalso
      cases hs : (downloadOriginState env chain none initialFetchState).statePairs with
      | none =>
        rw [hs] at hfail
        simp [readStatePairs] at hfail
      | some text =>
        rw [hs] at hfail
        unfold readStatePairs at hfail
        simp only [] at hfail
        cases hj : JSON_parse text with
        | none =>
          rw [hj] at hfail
          simp at hfail
        | some value =>
          rw [hj] at hfail
          simp at hfail
    | some f =>
      rw [hd] at hfail
      simp only [Except.error.injEq] at hfail
      subst hfail
      exact ⟨rfl, rfl⟩
  obtain ⟨text, htext, hparse⟩ := downloadOriginState_rangeQuery env chain hplain hfirst.1
  rw [hfirst.2, htext]
  refine ⟨⟨text, rfl, hparse⟩, ?_, ?_, ?_⟩
  · cases exported <;> rfl
  · cases exported <;> simp [ensureOriginStateKvPairs]
  · intro he
    subst he
    exact ⟨rfl, readStatePairs_rejected text hparse⟩

/-- C7 amended, on a first run that fails at the second leaf and a later run in quick mode
against a node that answers every request. -/
theorem partial_artifact_unreadable_witness :
    (ensureOriginStateKvPairs (fun _ => none) sampleEnv failingChain
      { exportedState := none, statePairs := none }).result = Except.error Failure.rangeQuery ∧
    (ensureOriginStateKvPairs (fun _ => none) quickEnv
      (answering (fun _ => "0xb10c") sampleResponses (fun _ => Equiv.refl _) 3)
      { exportedState := none,
        statePairs := (ensureOriginStateKvPairs (fun _ => none) sampleEnv failingChain
          { exportedState := none, statePairs := none }).files.statePairs }).result =
      Except.error Failure.parse := by
  have hplain : ∀ p a pairs, failingChain.getPairs p a = some pairs →
      ∀ kv ∈ pairs, plainPair kv = true := by
    intro p a pairs hp kv hkv
    unfold failingChain at hp
    simp only [] at hp
    by_cases h0 : p = "0x00"
    · rw [if_pos h0, Option.some.injEq] at hp
      subst hp
      rw [List.mem_singleton] at hkv
      rw [hkv]
      decide
    · rw [if_neg h0] at hp
      exact absurd hp (by simp)
  exact ⟨rfl, ((partial_artifact_unreadable (fun _ => none) (fun _ => none) sampleEnv quickEnv
    failingChain (answering (fun _ => "0xb10c") sampleResponses (fun _ => Equiv.refl _) 3) none
    hplain rfl).2.2.2 rfl).2⟩

/-! ## The fuel of the reader is never used up -/

theorem skipWs_length (cs : List Char) : (skipWs cs).length ≤ cs.length := by
  induction cs with
  | nil => exact le_refl _
  | cons c cs ih =>
    rw [skipWs]
    split
    · exact le_trans ih (Nat.le_succ _)
    · exact le_refl _

theorem skipWs_cons_length (cs : List Char) (c : Char) (rest : List Char)
    (h : skipWs cs = c :: rest) : rest.length < cs.length := by
  have := skipWs_length cs
  rw [h, List.length_cons] at this
  omega

theorem scanString_length (state : StringState) (cs : List Char) (r : List Nat × List Char)
    (h : scanString state cs = some r) : r.2.length < cs.length := by
  induction cs generalizing state r with
  | nil => cases state <;> simp [scanString] at h
  | cons c cs ih =>
    cases state with
    | plain =>
      rw [scanString] at h
      split at h
      · simp only [Option.some.injEq] at h
        subst h
        simp
      · split at h
        · exact lt_trans (ih _ _ h) (Nat.lt_succ_self _)
        · split at h
          · exact absurd h (by simp)
          · cases hs : scanString StringState.plain cs with
            | none =>
              rw [hs] at h
              exact absurd h (by simp)
            | some q =>
              rw [hs] at h
              simp only [Option.map_some', Option.some.injEq] at h
              subst h
              exact lt_trans (ih _ q hs) (Nat.lt_succ_self _)
    | escape =>
      rw [scanString] at h
      split at h
      · cases hs : scanString StringState.plain cs with
        | none =>
          rw [hs] at h
          exact absurd h (by simp)
        | some q =>
          rw [hs] at h
          simp only [Option.map_some', Option.some.injEq] at h
          subst h
          exact lt_trans (ih _ q hs) (Nat.lt_succ_self _)
      · split at h
        · exact lt_trans (ih _ _ h) (Nat.lt_succ_self _)
        · exact absurd h (by simp)
    | unicode digits value =>
      rw [scanString] at h
      split at h
      · exact absurd h (by simp)
      · split at h
        · cases hs : scanString StringState.plain cs with
          | none =>
            rw [hs] at h
            exact absurd h (by simp)
          | some q =>
            rw [hs] at h
            simp only [Option.map_some', Option.some.injEq] at h
            subst h
            exact lt_trans (ih _ q hs) (Nat.lt_succ_self _)
        · exact lt_trans (ih _ _ h) (Nat.lt_succ_self _)

theorem takeDigits_length (cs : List Char) : (takeDigits cs).2.length ≤ cs.length := by
  unfold takeDigits
  rw [List.span_eq_take_drop]
  exact (List.dropWhile_suffix _).length_le

theorem scanInteger_length (cs : List Char) (r : List Char × List Char)
    (h : scanInteger cs = some r) : r.2.length ≤ cs.length := by
  cases cs with
  | nil => simp [scanInteger] at h
  | cons d t =>
    have hd := takeDigits_length t
    simp only [scanInteger] at h
    split_ifs at h
    · simp only [Option.some.injEq] at h
      subst h
      simp
    · simp only [Option.some.injEq] at h
      subst h
      simp only [List.length_cons]
      omega

theorem scanFraction_length (cs : List Char) (r : List Char × List Char)
    (h : scanFraction cs = some r) : r.2.length ≤ cs.length := by
  cases cs with
  | nil =>
    simp only [scanFraction, Option.some.injEq] at h
    subst h
    simp
  | cons d t =>
    have hd := takeDigits_length t
    simp only [scanFraction] at h
    split_ifs at h
    · simp only [Option.some.injEq] at h
      subst h
      simp only [List.length_cons]
      omega
    · simp only [Option.some.injEq] at h
      subst h
      simp

theorem scanExponent_length (cs : List Char) (r : List Char × List Char)
    (h : scanExponent cs = some r) : r.2.length ≤ cs.length := by
  cases cs with
  | nil =>
    simp only [scanExponent, Option.some.injEq] at h
    subst h
    simp
  | cons e t =>
    have hd := takeDigits_length t
    cases t with
    | nil =>
      simp only [scanExponent] at h
      split_ifs at h
      simp only [Option.some.injEq] at h
      subst h
      simp
    | cons s t2 =>
      have hd2 := takeDigits_length t2
      simp only [scanExponent] at h
      split_ifs at h
      · simp only [Option.some.injEq] at h
        subst h
        simp only [List.length_cons]
        omega
      · simp only [Option.some.injEq] at h
        subst h
        simp only [List.length_cons] at hd ⊢
        omega
      · simp only [Option.some.injEq] at h
        subst h
        simp

theorem scanUnsigned_length (cs : List Char) (r : List Char × List Char)
    (h : scanUnsigned cs = some r) : r.2.length ≤ cs.length := by
  unfold scanUnsigned at h
  cases hi : scanInteger cs with
  | none =>
    rw [hi] at h
    simp at h
  | some i =>
    rw [hi] at h
    simp only [Option.some_bind] at h
    cases hf : scanFraction i.2 with
    | none =>
      rw [hf] at h
      simp at h
    | some f =>
      rw [hf] at h
      simp only [Option.some_bind] at h
      cases he : scanExponent f.2 with
      | none =>
        rw [he] at h
        simp at h
      | some e =>
        rw [he] at h
        simp only [Option.map_some', Option.some.injEq] at h
        subst h
        have h1 := scanInteger_length _ _ hi
        have h2 := scanFraction_length _ _ hf
        have h3 := scanExponent_length _ _ he
        simp only
        omega

theorem scanNumber_length (cs : List Char) (r : List Char × List Char)
    (h : scanNumber cs = some r) : r.2.length ≤ cs.length := by
  cases cs with
  | nil => simp [scanNumber] at h
  | cons c t =>
    simp only [scanNumber] at h
    split_ifs at h
    · cases hu : scanUnsigned t with
      | none =>
        rw [hu] at h
        simp at h
      | some n =>
        rw [hu] at h
        simp only [Option.map_some', Option.some.injEq] at h
        subst h
        have := scanUnsigned_length _ _ hu
        simp only [List.length_cons]
        omega
    · exact scanUnsigned_length _ _ h

theorem scanLiteral_length (word : List Char) (value : Json) (cs : List Char)
    (r : Json × List Char) (h : scanLiteral word value cs = some r) :
    r.2.length ≤ cs.length := by
  unfold scanLiteral at h
  split_ifs at h
  simp only [Option.some.injEq] at h
  subst h
  simp

theorem parse_length (fuel : Nat) :
    (∀ cs r, parseValue fuel cs = some r → r.2.length ≤ cs.length) ∧
    (∀ cs r, parseElements fuel cs = some r → r.2.length ≤ cs.length) ∧
    (∀ cs r, parseMember fuel cs = some r → r.2.length ≤ cs.length) ∧
    (∀ cs r, parseMembers fuel cs = some r → r.2.length ≤ cs.length) := by
  induction fuel with
  | zero =>
    refine ⟨?_, ?_, ?_, ?_⟩ <;> intro cs r h
    · simp [parseValue] at h
    · simp [parseElements] at h
    · simp [parseMember] at h
    · simp [parseMembers] at h
  | succ n ih =>
    obtain ⟨ihv, ihe, ihm, ihms⟩ := ih
    refine ⟨?_, ?_, ?_, ?_⟩
    · intro cs r h
      rw [parseValue] at h
      cases hsk : skipWs cs with
      | nil =>
        rw [hsk] at h
        simp at h
      | cons c rest =>
        have hl := skipWs_cons_length cs c rest hsk
        rw [hsk] at h
        simp only at h
        by_cases h1 : c = '['
        · rw [if_pos h1] at h
          cases hsk2 : skipWs rest with
          | nil =>
            rw [hsk2] at h
            simp at h
          | cons d rest2 =>
            have hl2 := skipWs_cons_length rest d rest2 hsk2
            rw [hsk2] at h
            simp only at h
            by_cases hd : d = ']'
            · rw [if_pos hd] at h
              simp only [Option.some.injEq] at h
              subst h
              simp only
              omega
            · rw [if_neg hd] at h
              cases hv : parseValue n (d :: rest2) with
              | none =>
                rw [hv] at h
                simp at h
              | some vr =>
                rw [hv] at h
                simp only [Option.some_bind] at h
                cases he : parseElements n vr.2 with
                | none =>
                  rw [he] at h
                  simp at h
                | some er =>
                  rw [he] at h
                  simp only [Option.map_some', Option.some.injEq] at h
                  subst h
                  have h2 := ihv _ _ hv
                  have h3 := ihe _ _ he
                  simp only [List.length_cons] at h2 ⊢
                  omega
        · rw [if_neg h1] at h
          by_cases h2 : c = openBrace
          · rw [if_pos h2] at h
            cases hsk2 : skipWs rest with
            | nil =>
              rw [hsk2] at h
              simp at h
            | cons d rest2 =>
              have hl2 := skipWs_cons_length rest d rest2 hsk2
              rw [hsk2] at h
              simp only at h
              by_cases hd : d = closeBrace
              · rw [if_pos hd] at h
                simp only [Option.some.injEq] at h
                subst h
                simp only
                omega
              · rw [if_neg hd] at h
                cases hv : parseMember n (d :: rest2) with
                | none =>
                  rw [hv] at h
                  simp at h
                | some vr =>
                  rw [hv] at h
                  simp only [Option.some_bind] at h
                  cases he : parseMembers n vr.2 with
                  | none =>
                    rw [he] at h
                    simp at h
                  | some er =>
                    rw [he] at h
                    simp only [Option.map_some', Option.some.injEq] at h
                    subst h
                    have h2 := ihm _ _ hv
                    have h3 := ihms _ _ he
                    simp only [List.length_cons] at h2 ⊢
                    omega
          · rw [if_neg h2] at h
            by_cases h3 : c = quoteChar
            · rw [if_pos h3] at h
              cases hs : scanString StringState.plain rest with
              | none =>
                rw [hs] at h
                simp at h
              | some sr =>
                rw [hs] at h
                simp only [Option.map_some', Option.some.injEq] at h
                subst h
                have := scanString_length _ _ _ hs
                simp only
                omega
            · rw [if_neg h3] at h
              have hc : (c :: rest).length ≤ cs.length := by
                simp only [List.length_cons]
                omega
              by_cases h4 : c = 't'
              · rw [if_pos h4] at h
                exact le_trans (scanLiteral_length _ _ _ _ h) hc
              · rw [if_neg h4] at h
                by_cases h5 : c = 'f'
                · rw [if_pos h5] at h
                  exact le_trans (scanLiteral_length _ _ _ _ h) hc
                · rw [if_neg h5] at h
                  by_cases h6 : c = 'n'
                  · rw [if_pos h6] at h
                    exact le_trans (scanLiteral_length _ _ _ _ h) hc
                  · rw [if_neg h6] at h
                    cases hn : scanNumber (c :: rest) with
                    | none =>
                      rw [hn] at h
                      simp at h
                    | some nr =>
                      rw [hn] at h
                      simp only [Option.map_some', Option.some.injEq] at h
                      subst h
                      exact le_trans (scanNumber_length _ _ hn) hc
    · intro cs r h
      rw [parseElements] at h
      cases hsk : skipWs cs with
      | nil =>
        rw [hsk] at h
        simp at h
      | cons c rest =>
        have hl := skipWs_cons_length cs c rest hsk
        rw [hsk] at h
        simp only at h
        by_cases h1 : c = ','
        · rw [if_pos h1] at h
          cases hv : parseValue n rest with
          | none =>
            rw [hv] at h
            simp at h
          | some vr =>
            rw [hv] at h
            simp only [Option.some_bind] at h
            cases he : parseElements n vr.2 with
            | none =>
              rw [he] at h
              simp at h
            | some er =>
              rw [he] at h
              simp only [Option.map_some', Option.some.injEq] at h
              subst h
              have h2 := ihv _ _ hv
              have h3 := ihe _ _ he
              simp only
              omega
        · rw [if_neg h1] at h
          by_cases h2 : c = ']'
          · rw [if_pos h2] at h
            simp only [Option.some.injEq] at h
            subst h
            simp only
            omega
          · rw [if_neg h2] at h
            simp at h
    · intro cs r h
      rw [parseMember] at h
      cases hsk : skipWs cs with
      | nil =>
        rw [hsk] at h
        simp at h
      | cons c rest =>
        have hl := skipWs_cons_length cs c rest hsk
        rw [hsk] at h
        simp only at h
        by_cases h1 : c = quoteChar
        · rw [if_pos h1] at h
          cases hs : scanString StringState.plain rest with
          | none =>
            rw [hs] at h
            simp at h
          | some sr =>
            have hsl := scanString_length _ _ _ hs
            rw [hs] at h
            simp only [Option.some_bind] at h
            cases hsk2 : skipWs sr.2 with
            | nil =>
              rw [hsk2] at h
              simp at h
            | cons d rest2 =>
              have hl2 := skipWs_cons_length sr.2 d rest2 hsk2
              rw [hsk2] at h
              simp only at h
              by_cases hd : d = ':'
              · rw [if_pos hd] at h
                cases hv : parseValue n rest2 with
                | none =>
                  rw [hv] at h
                  simp at h
                | some vr =>
                  rw [hv] at h
                  simp only [Option.map_some', Option.some.injEq] at h
                  subst h
                  have h2 := ihv _ _ hv
                  simp only
                  omega
              · rw [if_neg hd] at h
                simp at h
        · rw [if_neg h1] at h
          simp at h
    · intro cs r h
      rw [parseMembers] at h
      cases hsk : skipWs cs with
      | nil =>
        rw [hsk] at h
        simp at h
      | cons c rest =>
        have hl := skipWs_cons_length cs c rest hsk
        rw [hsk] at h
        simp only at h
        by_cases h1 : c = ','
        · rw [if_pos h1] at h
          cases hv : parseMember n rest with
          | none =>
            rw [hv] at h
            simp at h
          | some vr =>
            rw [hv] at h
            simp only [Option.some_bind] at h
            cases he : parseMembers n vr.2 with
            | none =>
              rw [he] at h
              simp at h
            | some er =>
              rw [he] at h
              simp only [Option.map_some', Option.some.injEq] at h
              subst h
              have h2 := ihm _ _ hv
              have h3 := ihms _ _ he
              simp only
              omega
        · rw [if_neg h1] at h
          by_cases h2 : c = closeBrace
          · rw [if_pos h2] at h
            simp only [Option.some.injEq] at h
            subst h
            simp only
            omega
          · rw [if_neg h2] at h
            simp at h

theorem parse_fuel (fuel : Nat) :
    (∀ cs, cs.length < fuel → parseValue (fuel + 1) cs = parseValue fuel cs) ∧
    (∀ cs, cs.length < fuel → parseElements (fuel + 1) cs = parseElements fuel cs) ∧
    (∀ cs, cs.length < fuel → parseMember (fuel + 1) cs = parseMember fuel cs) ∧
    (∀ cs, cs.length < fuel → parseMembers (fuel + 1) cs = parseMembers fuel cs) := by
  induction fuel with
  | zero =>
    refine ⟨?_, ?_, ?_, ?_⟩ <;> intro cs h <;> exact absurd h (Nat.not_lt_zero _)
  | succ n ih =>
    obtain ⟨ihv, ihe, ihm, ihms⟩ := ih
    obtain ⟨lv, le, lm, lms⟩ := parse_length n
    refine ⟨?_, ?_, ?_, ?_⟩
    · intro cs hcs
      conv_lhs => rw [parseValue]
      conv_rhs => rw [parseValue]
      cases hsk : skipWs cs with
      | nil => rfl
      | cons c rest =>
        have hl := skipWs_cons_length cs c rest hsk
        simp only
        by_cases h1 : c = '['
        · rw [if_pos h1, if_pos h1]
          cases hsk2 : skipWs rest with
          | nil => rfl
          | cons d rest2 =>
            have hl2 := skipWs_cons_length rest d rest2 hsk2
            simp only
            by_cases hd : d = ']'
            · rw [if_pos hd, if_pos hd]
            · rw [if_neg hd, if_neg hd]
              have hlen : (d :: rest2).length < n := by
                simp only [List.length_cons]
                omega
              rw [ihv _ hlen]
              cases hv : parseValue n (d :: rest2) with
              | none => rfl
              | some vr =>
                simp only [Option.some_bind]
                rw [ihe _ (lt_of_le_of_lt (lv _ _ hv) hlen)]
        · rw [if_neg h1, if_neg h1]
          by_cases h2 : c = openBrace
          · rw [if_pos h2, if_pos h2]
            cases hsk2 : skipWs rest with
            | nil => rfl
            | cons d rest2 =>
              have hl2 := skipWs_cons_length rest d rest2 hsk2
              simp only
              by_cases hd : d = closeBrace
              · rw [if_pos hd, if_pos hd]
              · rw [if_neg hd, if_neg hd]
                have hlen : (d :: rest2).length < n := by
                  simp only [List.length_cons]
                  omega
                rw [ihm _ hlen]
                cases hv : parseMember n (d :: rest2) with
                | none => rfl
                | some vr =>
                  simp only [Option.some_bind]
                  rw [ihms _ (lt_of_le_of_lt (lm _ _ hv) hlen)]
          · rw [if_neg h2, if_neg h2]
    · intro cs hcs
      conv_lhs => rw [parseElements]
      conv_rhs => rw [parseElements]
      cases hsk : skipWs cs with
      | nil => rfl
      | cons c rest =>
        have hl := skipWs_cons_length cs c rest hsk
        simp only
        by_cases h1 : c = ','
        · rw [if_pos h1, if_pos h1]
          have hlen : rest.length < n := by omega
          rw [ihv _ hlen]
          cases hv : parseValue n rest with
          | none => rfl
          | some vr =>
            simp only [Option.some_bind]
            rw [ihe _ (lt_of_le_of_lt (lv _ _ hv) hlen)]
        · rw [if_neg h1, if_neg h1]
    · intro cs hcs
      conv_lhs => rw [parseMember]
      conv_rhs => rw [parseMember]
      cases hsk : skipWs cs with
      | nil => rfl
      | cons c rest =>
        have hl := skipWs_cons_length cs c rest hsk
        simp only
        by_cases h1 : c = quoteChar
        · rw [if_pos h1, if_pos h1]
          cases hs : scanString StringState.plain rest with
          | none => rfl
          | some sr =>
            have hsl := scanString_length _ _ _ hs
            simp only [Option.some_bind]
            cases hsk2 : skipWs sr.2 with
            | nil => rfl
            | cons d rest2 =>
              have hl2 := skipWs_cons_length sr.2 d rest2 hsk2
              simp only
              by_cases hd : d = ':'
              · rw [if_pos hd, if_pos hd]
                have hlen : rest2.length < n := by omega
                rw [ihv _ hlen]
              · rw [if_neg hd, if_neg hd]
        · rw [if_neg h1, if_neg h1]
    · intro cs hcs
      conv_lhs => rw [parseMembers]
      conv_rhs => rw [parseMembers]
      cases hsk : skipWs cs with
      | nil => rfl
      | cons c rest =>
        have hl := skipWs_cons_length cs c rest hsk
        simp only
        by_cases h1 : c = ','
        · rw [if_pos h1, if_pos h1]
          have hlen : rest.length < n := by omega
          rw [ihm _ hlen]
          cases hv : parseMember n rest with
          | none => rfl
          | some vr =>
            simp only [Option.some_bind]
            rw [ihms _ (lt_of_le_of_lt (lm _ _ hv) hlen)]
        · rw [if_neg h1, if_neg h1]

/-- A fuel above the length of the text reads the text as every larger fuel does: no text is
refused for want of fuel. -/
theorem parseValue_fuel (cs : List Char) (fuel : Nat) (h : cs.length < fuel) :
    parseValue fuel cs = parseValue (cs.length + 1) cs := by
  induction fuel with
  | zero => exact absurd h (Nat.not_lt_zero _)
  | succ n ih =>
    rcases Nat.lt_or_ge cs.length n with hlt | hge
    · rw [(parse_fuel n).1 cs hlt]
      exact ih hlt
    · have hn : n = cs.length := by omega
      subst hn
      rfl

/-- The fuel `JSON_parse` gives the reader is enough: any larger fuel reads the same value. -/
theorem JSON_parse_fuel (text : String) (fuel : Nat) (h : text.length < fuel) :
    ((parseValue fuel text.data).bind fun vr =>
      if skipWs vr.2 = [] then some vr.1 else none) = JSON_parse text := by
  unfold JSON_parse
  rw [parseValue_fuel text.data fuel h]
  rfl

end CessHardfork
